import Mathlib

/-!
# Verification of the Ryu double-to-decimal conversion core (MSVC-STL variant)

This file gives a shallow embedding, in Lean 4, of the numeric core found in
`src/ryu/d2s.c`, `src/ryu/d2fixed.c` and the unnamed intrinsics/common headers
(`src/unnamed/part_000` .. `part_002`) of the repository, and proves or refutes
a number of properties of that code.

Machine integers (`uint64_t`, `uint32_t`) are embedded as `ℕ` with explicit
`% 2 ^ 64` (resp. `% 2 ^ 32`) at the operations where C wrap-around matters.
Signed `int32_t` quantities that can be negative (binary/decimal exponents) are
embedded as `ℤ`.  Buffer-writing routines are embedded as functions producing
`List Char`; the buffer-size checks (`errc::value_too_large`) are outside the
scope of the properties below and are not modelled.
-/

/-! ## Division helpers (src/unnamed/part_001, 64-bit branch)

`div5(x) = x / 5`, `div10(x) = x / 10`, `div100(x) = x / 100`,
`div1e8(x) = x / 100000000`, `div1e9(x) = x / 1000000000`,
`mod1e9(x) = (uint32_t)(x - 1000000000 * div1e9(x))`.
All arguments are `uint64_t`, so quotients never overflow and the
`mod1e9` subtraction is exact. -/

def div5 (x : ℕ) : ℕ := x / 5

def div10 (x : ℕ) : ℕ := x / 10

def div100 (x : ℕ) : ℕ := x / 100

def div1e8 (x : ℕ) : ℕ := x / 100000000

def div1e9 (x : ℕ) : ℕ := x / 1000000000

def mod1e9 (x : ℕ) : ℕ := x - 1000000000 * div1e9 x

/-- `pow5Factor` (src/unnamed/part_001): the loop
`for(;;) { q = div5(value); r = value - 5*q; if (r != 0) break; value = q; ++count; }`.
The C loop asserts `value != 0`; the extra `v ≠ 0` guard below makes the
function total in Lean (the C code would loop forever on 0, which is
unreachable at all call sites). -/
def pow5Factor (v : ℕ) : ℕ :=
  if h : v % 5 = 0 ∧ v ≠ 0 then pow5Factor (v / 5) + 1 else 0
decreasing_by
  exact Nat.div_lt_self (Nat.pos_of_ne_zero h.2) (by norm_num)

/-- `multipleOfPowerOf5(value, p)` (src/unnamed/part_001): `pow5Factor(value) >= p`. -/
def multipleOfPowerOf5 (v p : ℕ) : Bool := p ≤ pow5Factor v

/-- `multipleOfPowerOf2(value, p)` (src/unnamed/part_001):
`(value & ((1ull << p) - 1)) == 0`. -/
def multipleOfPowerOf2 (v p : ℕ) : Bool := v &&& ((1 <<< p) - 1) == 0

/-! ## Fixed-point logarithm approximations (src/ryu/d2fixed.c, lines 574-598)

The C multiplications are performed on `uint32_t`; the `% 2 ^ 32` records that.
(On each stated domain the product stays below `2 ^ 32`, which is part of what
is proved below.) -/

/-- `__pow5bits(e) = (int32_t)(((uint32_t)e * 1217359) >> 19) + 1` for `0 ≤ e ≤ 3528`. -/
def pow5bits (e : ℕ) : ℕ := ((e * 1217359) % 2 ^ 32) >>> 19 + 1

/-- `__log10Pow2(e) = ((uint32_t)e * 78913) >> 18` for `0 ≤ e ≤ 1650`. -/
def log10Pow2 (e : ℕ) : ℕ := ((e * 78913) % 2 ^ 32) >>> 18

/-- `__log10Pow5(e) = ((uint32_t)e * 732923) >> 20` for `0 ≤ e ≤ 2620`. -/
def log10Pow5 (e : ℕ) : ℕ := ((e * 732923) % 2 ^ 32) >>> 20

/-- `__decimalLength17(v)` (src/ryu/d2s.c, lines 114-137); precondition `v < 10^17`. -/
def decimalLength17 (v : ℕ) : ℕ :=
  if 10000000000000000 ≤ v then 17
  else if 1000000000000000 ≤ v then 16
  else if 100000000000000 ≤ v then 15
  else if 10000000000000 ≤ v then 14
  else if 1000000000000 ≤ v then 13
  else if 100000000000 ≤ v then 12
  else if 10000000000 ≤ v then 11
  else if 1000000000 ≤ v then 10
  else if 100000000 ≤ v then 9
  else if 10000000 ≤ v then 8
  else if 1000000 ≤ v then 7
  else if 100000 ≤ v then 6
  else if 10000 ≤ v then 5
  else if 1000 ≤ v then 4
  else if 100 ≤ v then 3
  else if 10 ≤ v then 2
  else 1

/-! ### Exactness of the logarithm approximations, in chunks of at most 1000
exponents (each chunk is settled by kernel computation). -/

set_option maxRecDepth 100000 in
set_option exponentiation.threshold 20000 in
theorem pow5bits_chunk0 : ∀ e < 1000, 1 ≤ e →
    2 ^ (pow5bits e - 1) < 5 ^ e ∧ 5 ^ e ≤ 2 ^ pow5bits e := by decide

set_option maxRecDepth 100000 in
set_option exponentiation.threshold 20000 in
theorem pow5bits_chunk1 : ∀ e < 1000,
    2 ^ (pow5bits (1000 + e) - 1) < 5 ^ (1000 + e) ∧
      5 ^ (1000 + e) ≤ 2 ^ pow5bits (1000 + e) := by decide

set_option maxRecDepth 100000 in
set_option exponentiation.threshold 20000 in
theorem pow5bits_chunk2 : ∀ e < 1000,
    2 ^ (pow5bits (2000 + e) - 1) < 5 ^ (2000 + e) ∧
      5 ^ (2000 + e) ≤ 2 ^ pow5bits (2000 + e) := by decide

set_option maxRecDepth 100000 in
set_option exponentiation.threshold 20000 in
theorem pow5bits_chunk3 : ∀ e < 529,
    2 ^ (pow5bits (3000 + e) - 1) < 5 ^ (3000 + e) ∧
      5 ^ (3000 + e) ≤ 2 ^ pow5bits (3000 + e) := by decide

set_option maxRecDepth 100000 in
set_option exponentiation.threshold 20000 in
theorem log10Pow2_chunk0 : ∀ e < 1000,
    10 ^ log10Pow2 e ≤ 2 ^ e ∧ 2 ^ e < 10 ^ (log10Pow2 e + 1) := by decide

set_option maxRecDepth 100000 in
set_option exponentiation.threshold 20000 in
theorem log10Pow2_chunk1 : ∀ e < 651,
    10 ^ log10Pow2 (1000 + e) ≤ 2 ^ (1000 + e) ∧
      2 ^ (1000 + e) < 10 ^ (log10Pow2 (1000 + e) + 1) := by decide

set_option maxRecDepth 100000 in
set_option exponentiation.threshold 20000 in
theorem log10Pow5_chunk0 : ∀ e < 1000,
    10 ^ log10Pow5 e ≤ 5 ^ e ∧ 5 ^ e < 10 ^ (log10Pow5 e + 1) := by decide

set_option maxRecDepth 100000 in
set_option exponentiation.threshold 20000 in
theorem log10Pow5_chunk1 : ∀ e < 1000,
    10 ^ log10Pow5 (1000 + e) ≤ 5 ^ (1000 + e) ∧
      5 ^ (1000 + e) < 10 ^ (log10Pow5 (1000 + e) + 1) := by decide

set_option maxRecDepth 100000 in
set_option exponentiation.threshold 20000 in
theorem log10Pow5_chunk2 : ∀ e < 621,
    10 ^ log10Pow5 (2000 + e) ≤ 5 ^ (2000 + e) ∧
      5 ^ (2000 + e) < 10 ^ (log10Pow5 (2000 + e) + 1) := by decide

theorem pow5bits_bounds (e : ℕ) (he1 : 1 ≤ e) (he : e ≤ 3528) :
    2 ^ (pow5bits e - 1) < 5 ^ e ∧ 5 ^ e ≤ 2 ^ pow5bits e := by
  rcases Nat.lt_or_ge e 1000 with h | h
  · exact pow5bits_chunk0 e h he1
  rcases Nat.lt_or_ge e 2000 with h2 | h2
  · have := pow5bits_chunk1 (e - 1000) (by omega)
    rwa [Nat.add_sub_cancel' h] at this
  rcases Nat.lt_or_ge e 3000 with h3 | h3
  · have := pow5bits_chunk2 (e - 2000) (by omega)
    rwa [Nat.add_sub_cancel' h2] at this
  · have := pow5bits_chunk3 (e - 3000) (by omega)
    rwa [Nat.add_sub_cancel' h3] at this

theorem log10Pow2_bounds (e : ℕ) (he : e ≤ 1650) :
    10 ^ log10Pow2 e ≤ 2 ^ e ∧ 2 ^ e < 10 ^ (log10Pow2 e + 1) := by
  rcases Nat.lt_or_ge e 1000 with h | h
  · exact log10Pow2_chunk0 e h
  · have := log10Pow2_chunk1 (e - 1000) (by omega)
    rwa [Nat.add_sub_cancel' h] at this

theorem log10Pow5_bounds (e : ℕ) (he : e ≤ 2620) :
    10 ^ log10Pow5 e ≤ 5 ^ e ∧ 5 ^ e < 10 ^ (log10Pow5 e + 1) := by
  rcases Nat.lt_or_ge e 1000 with h | h
  · exact log10Pow5_chunk0 e h
  rcases Nat.lt_or_ge e 2000 with h2 | h2
  · have := log10Pow5_chunk1 (e - 1000) (by omega)
    rwa [Nat.add_sub_cancel' h] at this
  · have := log10Pow5_chunk2 (e - 2000) (by omega)
    rwa [Nat.add_sub_cancel' h2] at this

/-- C8: the fixed-point logarithm approximations are exact on their stated
domains: `pow5bits e = ⌈log₂ (5 ^ e)⌉` for `e ∈ [0, 3528]` (with the value 1 at
`e = 0` by convention), `log10Pow2 e = ⌊log₁₀ (2 ^ e)⌋` for `e ∈ [0, 1650]`,
and `log10Pow5 e = ⌊log₁₀ (5 ^ e)⌋` for `e ∈ [0, 2620]`. -/
theorem log_approximations_exact :
    (∀ e : ℕ, e ≤ 3528 → pow5bits e = if e = 0 then 1 else Nat.clog 2 (5 ^ e)) ∧
    (∀ e : ℕ, e ≤ 1650 → log10Pow2 e = Nat.log 10 (2 ^ e)) ∧
    (∀ e : ℕ, e ≤ 2620 → log10Pow5 e = Nat.log 10 (5 ^ e)) := by
  refine ⟨fun e he => ?_, fun e he => ?_, fun e he => ?_⟩
  · rcases Nat.eq_zero_or_pos e with rfl | he1
    · simp [pow5bits]
    · obtain ⟨h1, h2⟩ := pow5bits_bounds e he1 he
      rw [if_neg (by omega)]
      have hup : Nat.clog 2 (5 ^ e) ≤ pow5bits e :=
        (Nat.le_pow_iff_clog_le (by norm_num)).mp h2
      have hlo : pow5bits e - 1 < Nat.clog 2 (5 ^ e) :=
        (Nat.pow_lt_iff_lt_clog (by norm_num)).mp h1
      have : 1 ≤ pow5bits e := by simp [pow5bits]
      omega
  · obtain ⟨h1, h2⟩ := log10Pow2_bounds e he
    exact (Nat.log_eq_of_pow_le_of_lt_pow h1 h2).symm
  · obtain ⟨h1, h2⟩ := log10Pow5_bounds e he
    exact (Nat.log_eq_of_pow_le_of_lt_pow h1 h2).symm

/-- Witness for C8 at concrete exponents. -/
theorem log_approximations_exact_witness :
    (pow5bits 3 = if (3 : ℕ) = 0 then 1 else Nat.clog 2 (5 ^ 3)) ∧
    log10Pow2 10 = Nat.log 10 (2 ^ 10) ∧ log10Pow5 10 = Nat.log 10 (5 ^ 10) :=
  ⟨log_approximations_exact.1 3 (by norm_num),
   log_approximations_exact.2.1 10 (by norm_num),
   log_approximations_exact.2.2 10 (by norm_num)⟩

/-! ## The decimal form and the small-integer fast path (src/ryu/d2s.c) -/

/-- `__floating_decimal_64` (src/ryu/d2s.c, lines 139-143): a floating decimal
representing `mantissa * 10 ^ exponent` (`__mantissa : uint64_t`,
`__exponent : int32_t`). -/
structure floating_decimal_64 where
  mantissa : ℕ
  exponent : ℤ
deriving DecidableEq

/-- `__d2d_small_int(ieeeMantissa, ieeeExponent, __v)` (src/ryu/d2s.c, lines
633-663).  The C function returns `bool` and writes the result through the out
parameter `__v` only in the success path; `Option` models exactly that:
`none` is `return false` with `*__v` untouched. -/
def d2d_small_int (ieeeMantissa ieeeExponent : ℕ) : Option floating_decimal_64 :=
  let m2 : ℕ := (1 <<< 52) ||| ieeeMantissa
  let e2 : ℤ := (ieeeExponent : ℤ) - 1023 - 52
  if 0 < e2 then none
  else if e2 < -52 then none
  else
    let mask : ℕ := (1 <<< (-e2).toNat) - 1
    let fraction : ℕ := m2 &&& mask
    if fraction ≠ 0 then none
    else some ⟨m2 >>> (-e2).toNat, 0⟩

theorem one_shiftLeft_or_eq_add (mant : ℕ) (hm : mant < 2 ^ 52) :
    (1 <<< 52) ||| mant = 2 ^ 52 + mant := by
  have h := Nat.mul_add_lt_is_or hm 1
  simpa [Nat.shiftLeft_eq] using h.symm


/-- C9: for `ieeeExponent ≠ 0`, `__d2d_small_int` succeeds iff the encoded
value `m2 * 2 ^ e2` (with `m2 = (1 << 52) | ieeeMantissa` and
`e2 = ieeeExponent - 1075`) is an integer in `[1, 2^53)`, equivalently iff
`e2 ≤ 0`, `e2 ≥ -52` and the lowest `-e2` bits of `m2` are zero; and on
success it returns `mantissa = m2 >> -e2`, `exponent = 0`. -/
theorem d2d_small_int_characterization (mant exp : ℕ) (hm : mant < 2 ^ 52)
    (he : 1 ≤ exp) :
    ((d2d_small_int mant exp).isSome ↔
      ∃ n : ℕ, 1 ≤ n ∧ n < 2 ^ 53 ∧
        ((2 ^ 52 + mant : ℚ)) * (2 : ℚ) ^ ((exp : ℤ) - 1075) = n) ∧
    ((d2d_small_int mant exp).isSome ↔
      ((exp : ℤ) - 1075 ≤ 0 ∧ (-52 : ℤ) ≤ (exp : ℤ) - 1075 ∧
        (2 ^ 52 + mant) % 2 ^ (1075 - exp) = 0)) ∧
    (∀ fd, d2d_small_int mant exp = some fd →
      fd = ⟨(2 ^ 52 + mant) / 2 ^ (1075 - exp), 0⟩) := by
  have hor := one_shiftLeft_or_eq_add mant hm
  have hm2lt : 2 ^ 52 + mant < 2 ^ 53 := by omega
  rcases Nat.lt_or_ge 1075 exp with hA | hA
  · -- e2 > 0: the value is at least 2^53
    have hif : 0 < (exp : ℤ) - 1023 - 52 := by omega
    have hnone : d2d_small_int mant exp = none := by
      simp only [d2d_small_int, if_pos hif]
    refine ⟨?_, ?_, ?_⟩
    · rw [hnone]
      simp only [Option.isSome_none, Bool.false_eq_true, false_iff]
      rintro ⟨n, hn1, hn2, heq⟩
      obtain ⟨k, hk⟩ : ∃ k : ℕ, (exp : ℤ) - 1075 = (k : ℤ) + 1 :=
        ⟨exp - 1076, by omega⟩
      rw [hk, zpow_add₀ (by norm_num : (2 : ℚ) ≠ 0), zpow_one,
        zpow_natCast] at heq
      have h2k : (1 : ℚ) ≤ 2 ^ k := one_le_pow₀ (by norm_num)
      have hmn : (0 : ℚ) ≤ (mant : ℚ) := Nat.cast_nonneg mant
      have hge : (2 ^ 53 : ℚ) ≤ n := by
        rw [← heq]
        nlinarith [h2k, hmn]
      have : (2 ^ 53 : ℕ) ≤ n := by exact_mod_cast hge
      omega
    · rw [hnone]
      simp only [Option.isSome_none, Bool.false_eq_true, false_iff]
      rintro ⟨h1, -, -⟩
      omega
    · intro fd hfd
      rw [hnone] at hfd
      exact absurd hfd (by simp)
  rcases Nat.lt_or_ge exp 1023 with hB | hB
  · -- e2 < -52: the value is below 1
    have hif : ¬ (0 < (exp : ℤ) - 1023 - 52) := by omega
    have hif2 : (exp : ℤ) - 1023 - 52 < -52 := by omega
    have hnone : d2d_small_int mant exp = none := by
      simp only [d2d_small_int, if_neg hif, if_pos hif2]
    have hone : (2 : ℚ) ^ (53 : ℕ) * (2 : ℚ) ^ (-53 : ℤ) = 1 := by
      rw [← zpow_natCast (2 : ℚ) 53, ← zpow_add₀ (by norm_num : (2 : ℚ) ≠ 0)]
      norm_num
    refine ⟨?_, ?_, ?_⟩
    · rw [hnone]
      simp only [Option.isSome_none, Bool.false_eq_true, false_iff]
      rintro ⟨n, hn1, hn2, heq⟩
      have hlt : ((2 ^ 52 + mant : ℚ)) * (2 : ℚ) ^ ((exp : ℤ) - 1075) < 1 := by
        have hmono : (2 : ℚ) ^ ((exp : ℤ) - 1075) ≤ (2 : ℚ) ^ (-53 : ℤ) :=
          zpow_le_zpow_right₀ (by norm_num) (by omega)
        have hcast : ((2 ^ 52 + mant : ℚ)) < 2 ^ (53 : ℕ) := by
          exact_mod_cast hm2lt
        have hpos : (0 : ℚ) < (2 : ℚ) ^ (-53 : ℤ) := zpow_pos (by norm_num) _
        calc ((2 ^ 52 + mant : ℚ)) * (2 : ℚ) ^ ((exp : ℤ) - 1075)
            ≤ ((2 ^ 52 + mant : ℚ)) * (2 : ℚ) ^ (-53 : ℤ) := by
              have hge0 : (0 : ℚ) ≤ ((2 ^ 52 + mant : ℚ)) := by positivity
              exact mul_le_mul_of_nonneg_left hmono hge0
          _ < (2 : ℚ) ^ (53 : ℕ) * (2 : ℚ) ^ (-53 : ℤ) :=
              mul_lt_mul_of_pos_right hcast hpos
          _ = 1 := hone
      rw [heq] at hlt
      have : (1 : ℚ) ≤ (n : ℚ) := by exact_mod_cast hn1
      linarith
    · rw [hnone]
      simp only [Option.isSome_none, Bool.false_eq_true, false_iff]
      rintro ⟨-, h2, -⟩
      omega
    · intro fd hfd
      rw [hnone] at hfd
      exact absurd hfd (by simp)
  · -- -52 ≤ e2 ≤ 0
    have hif : ¬ (0 < (exp : ℤ) - 1023 - 52) := by omega
    have hif2 : ¬ ((exp : ℤ) - 1023 - 52 < -52) := by omega
    have htoNat : (-((exp : ℤ) - 1023 - 52)).toNat = 1075 - exp := by omega
    have hmask : (2 ^ 52 + mant) &&& ((1 <<< (1075 - exp)) - 1) =
        (2 ^ 52 + mant) % 2 ^ (1075 - exp) := by
      rw [Nat.shiftLeft_eq, one_mul, Nat.and_pow_two_sub_one_eq_mod]
    have hred : d2d_small_int mant exp =
        if (2 ^ 52 + mant) % 2 ^ (1075 - exp) ≠ 0 then none
        else some ⟨(2 ^ 52 + mant) >>> (1075 - exp), 0⟩ := by
      simp only [d2d_small_int, if_neg hif, if_neg hif2, htoNat, hor, hmask]
    have hzpow : (2 : ℚ) ^ ((exp : ℤ) - 1075) =
        ((2 : ℚ) ^ (1075 - exp : ℕ))⁻¹ := by
      have h1 : ((exp : ℤ) - 1075) = -((1075 - exp : ℕ) : ℤ) := by omega
      rw [h1, zpow_neg, zpow_natCast]
    have hiff : (2 ^ 52 + mant) % 2 ^ (1075 - exp) = 0 ↔
        ∃ n : ℕ, 1 ≤ n ∧ n < 2 ^ 53 ∧
          ((2 ^ 52 + mant : ℚ)) * (2 : ℚ) ^ ((exp : ℤ) - 1075) = n := by
      constructor
      · intro hmod
        have hdvd : 2 ^ (1075 - exp) ∣ 2 ^ 52 + mant :=
          Nat.dvd_of_mod_eq_zero hmod
        have heqn : 2 ^ (1075 - exp) * ((2 ^ 52 + mant) / 2 ^ (1075 - exp)) =
            2 ^ 52 + mant := Nat.mul_div_cancel' hdvd
        refine ⟨(2 ^ 52 + mant) / 2 ^ (1075 - exp), ?_, ?_, ?_⟩
        · have hle : 2 ^ (1075 - exp) ≤ 2 ^ 52 + mant := by
            have hk52 : (1075 - exp : ℕ) ≤ 52 := by omega
            have := Nat.pow_le_pow_right (show 0 < 2 by norm_num) hk52
            omega
          exact (Nat.one_le_div_iff (Nat.two_pow_pos _)).mpr hle
        · exact lt_of_le_of_lt (Nat.div_le_self _ _) hm2lt
        · have hcast : (2 : ℚ) ^ (1075 - exp : ℕ) *
              (((2 ^ 52 + mant) / 2 ^ (1075 - exp) : ℕ) : ℚ) =
              (2 : ℚ) ^ 52 + (mant : ℚ) := by
            exact_mod_cast congrArg (fun t : ℕ => (t : ℚ)) heqn
          rw [hzpow, ← hcast, mul_comm ((2 : ℚ) ^ (1075 - exp : ℕ)) _,
            mul_assoc, mul_inv_cancel₀ (by positivity), mul_one]
      · rintro ⟨n, -, -, heq⟩
        rw [hzpow] at heq
        have h2pos : (0 : ℚ) < (2 : ℚ) ^ (1075 - exp : ℕ) := by positivity
        have hq : ((2 ^ 52 + mant : ℚ)) = n * (2 : ℚ) ^ (1075 - exp : ℕ) := by
          rw [eq_comm, ← heq, mul_assoc, inv_mul_cancel₀ (ne_of_gt h2pos),
            mul_one]
        have hnat : 2 ^ 52 + mant = n * 2 ^ (1075 - exp) := by
          exact_mod_cast hq
        rw [hnat]
        simp [Nat.mul_mod_left]
    refine ⟨?_, ?_, ?_⟩
    · rw [hred]
      by_cases hmod : (2 ^ 52 + mant) % 2 ^ (1075 - exp) = 0
      · rw [if_neg (by simpa using hmod)]
        simp only [Option.isSome_some, true_iff]
        exact hiff.mp hmod
      · rw [if_pos hmod]
        simp only [Option.isSome_none, Bool.false_eq_true, false_iff]
        intro hex
        exact hmod (hiff.mpr hex)
    · rw [hred]
      by_cases hmod : (2 ^ 52 + mant) % 2 ^ (1075 - exp) = 0
      · rw [if_neg (by simpa using hmod)]
        simp only [Option.isSome_some, true_iff]
        exact ⟨by omega, by omega, hmod⟩
      · rw [if_pos hmod]
        simp only [Option.isSome_none, Bool.false_eq_true, false_iff]
        rintro ⟨-, -, h3⟩
        exact hmod h3
    · intro fd hfd
      rw [hred] at hfd
      by_cases hmod : (2 ^ 52 + mant) % 2 ^ (1075 - exp) = 0
      · rw [if_neg (by simpa using hmod)] at hfd
        have := Option.some.inj hfd
        rw [← this, Nat.shiftRight_eq_div_pow]
      · rw [if_pos hmod] at hfd
        exact absurd hfd (by simp)

/-- Witness for C9 at the bit pattern of the double 1.0
(`ieeeMantissa = 0`, `ieeeExponent = 1023`). -/
theorem d2d_small_int_characterization_witness :
    ((d2d_small_int 0 1023).isSome ↔
      ∃ n : ℕ, 1 ≤ n ∧ n < 2 ^ 53 ∧
        ((2 ^ 52 + 0 : ℚ)) * (2 : ℚ) ^ ((1023 : ℤ) - 1075) = n) ∧
    ((d2d_small_int 0 1023).isSome ↔
      ((1023 : ℤ) - 1075 ≤ 0 ∧ (-52 : ℤ) ≤ (1023 : ℤ) - 1075 ∧
        (2 ^ 52 + 0) % 2 ^ (1075 - 1023) = 0)) ∧
    (∀ fd, d2d_small_int 0 1023 = some fd →
      fd = ⟨(2 ^ 52 + 0) / 2 ^ (1075 - 1023), 0⟩) := by
  have h := d2d_small_int_characterization 0 1023 (by norm_num) (by norm_num)
  exact_mod_cast h

/-! ## The 64x128-bit multiply-shift (src/ryu/d2s.c, lines 55-112)

`umul128` returns the low/high halves of a full 64x64 product and
`shiftright128(lo, hi, dist)` returns bits `[dist, dist+64)` of `hi:lo`
(src/unnamed/part_001).  C unsigned subtraction `a - b` is embedded as
`(a + 2^64 - b) % 2^64`. -/

def umul128 (a b : ℕ) : ℕ × ℕ := (a * b % 2 ^ 64, a * b / 2 ^ 64)

def shiftright128 (lo hi dist : ℕ) : ℕ :=
  ((hi <<< (64 - dist)) % 2 ^ 64) ||| (lo >>> dist)

/-- `__mulShift(m, mul, j)` — the `_M_X64` branch (src/ryu/d2s.c, lines 57-68).
The two limbs of the 128-bit multiplier array are passed as `mul1 = __mul[0]`
and `mul2 = __mul[1]`. -/
def mulShift (m mul1 mul2 : ℕ) (j : ℕ) : ℕ :=
  let low1 := m * mul2 % 2 ^ 64
  let high1 := m * mul2 / 2 ^ 64
  let high0 := m * mul1 / 2 ^ 64
  let sum := (high0 + low1) % 2 ^ 64
  let high1x := if sum < high0 then (high1 + 1) % 2 ^ 64 else high1
  shiftright128 sum high1x (j - 64)

/-- `__mulShiftAll` — the `_M_X64` (intrinsics-available) branch
(src/ryu/d2s.c, lines 70-75), returning `(vr, vp, vm)`.
`4*m - 1 - mmShift` is the C `uint64_t` expression, hence the wrap-around. -/
def mulShiftAll (m mul1 mul2 : ℕ) (j : ℕ) (mmShift : ℕ) : ℕ × ℕ × ℕ :=
  (mulShift (4 * m % 2 ^ 64) mul1 mul2 j,
   mulShift ((4 * m + 2) % 2 ^ 64) mul1 mul2 j,
   mulShift ((4 * m % 2 ^ 64 + (2 ^ 64 - 1 - mmShift)) % 2 ^ 64) mul1 mul2 j)

/-- `__mulShiftAll` — the intrinsics-unavailable branch (src/ryu/d2s.c, lines
79-110), returning `(vr, vp, vm)`.  All the `uint64_t` additions, doublings
and subtractions with their carry/borrow flags are reproduced exactly; C
unsigned subtraction `a - b` is embedded as `(a + 2^64 - b) % 2^64`. -/
def mulShiftAllFallback (m0 mul1 mul2 : ℕ) (j : ℕ) (mmShift : ℕ) :
    ℕ × ℕ × ℕ :=
  let m := m0 <<< 1 % 2 ^ 64
  let lo := m * mul1 % 2 ^ 64
  let tmp := m * mul1 / 2 ^ 64
  let lo1 := m * mul2 % 2 ^ 64
  let hi0 := m * mul2 / 2 ^ 64
  let mid := (tmp + lo1) % 2 ^ 64
  let hi := (hi0 + if mid < tmp then 1 else 0) % 2 ^ 64
  let lo2 := (lo + mul1) % 2 ^ 64
  let mid2 := (mid + mul2 + if lo2 < lo then 1 else 0) % 2 ^ 64
  let hi2 := (hi + if mid2 < mid then 1 else 0) % 2 ^ 64
  let vp := shiftright128 mid2 hi2 (j - 64 - 1)
  let vm :=
    if mmShift == 1 then
      let lo3 := (lo + 2 ^ 64 - mul1) % 2 ^ 64
      let mid3 := (mid + 2 ^ 64 - mul2 + 2 ^ 64 -
        (if lo3 > lo then 1 else 0)) % 2 ^ 64
      let hi3 := (hi + 2 ^ 64 - (if mid3 > mid then 1 else 0)) % 2 ^ 64
      shiftright128 mid3 hi3 (j - 64 - 1)
    else
      let lo3 := (lo + lo) % 2 ^ 64
      let mid3 := (mid + mid + if lo3 < lo then 1 else 0) % 2 ^ 64
      let hi3 := (hi + hi + if mid3 < mid then 1 else 0) % 2 ^ 64
      let lo4 := (lo3 + 2 ^ 64 - mul1) % 2 ^ 64
      let mid4 := (mid3 + 2 ^ 64 - mul2 + 2 ^ 64 -
        (if lo4 > lo3 then 1 else 0)) % 2 ^ 64
      let hi4 := (hi3 + 2 ^ 64 - (if mid4 > mid3 then 1 else 0)) % 2 ^ 64
      shiftright128 mid4 hi4 (j - 64)
  (shiftright128 mid hi (j - 64 - 1), vp, vm)

/-! ### Carry/borrow arithmetic helpers -/

theorem mod64_carry (u a : ℕ) (h1 : a ≤ u) (h2 : u < a + 2 ^ 64)
    (ha : a < 2 ^ 64) :
    u % 2 ^ 64 + 2 ^ 64 * (if u % 2 ^ 64 < a then 1 else 0) = u := by
  have e64 : (2 : ℕ) ^ 64 = 18446744073709551616 := by norm_num
  rw [e64] at *
  split_ifs with h <;> omega

theorem mod64_borrow (a s : ℕ) (ha : a < 2 ^ 64) (hs : s < 2 ^ 64) :
    (a + 2 ^ 64 - s) % 2 ^ 64 + s =
      a + 2 ^ 64 * (if (a + 2 ^ 64 - s) % 2 ^ 64 > a then 1 else 0) := by
  have e64 : (2 : ℕ) ^ 64 = 18446744073709551616 := by norm_num
  rw [e64] at *
  split_ifs with h <;> omega

theorem mod64_sub2_norm (a x y : ℕ) (hx : x < 2 ^ 64) (hy : y ≤ 1) :
    (a + 2 ^ 64 - x + 2 ^ 64 - y) % 2 ^ 64 = (a + 2 ^ 64 - (x + y)) % 2 ^ 64 := by
  have e64 : (2 : ℕ) ^ 64 = 18446744073709551616 := by norm_num
  rw [e64] at *
  have h : a + 18446744073709551616 - x + 18446744073709551616 - y =
      a + 18446744073709551616 - (x + y) + 18446744073709551616 := by omega
  rw [h, Nat.add_mod_right]

/-! ### Correctness of `shiftright128` as division -/

theorem shiftright128_spec (lo hi dist : ℕ) (hlo : lo < 2 ^ 64)
    (hhi : hi < 2 ^ 64) (hd1 : 0 < dist) (hd2 : dist < 64) :
    shiftright128 lo hi dist = (2 ^ 64 * hi + lo) / 2 ^ dist % 2 ^ 64 := by
  have hpow : (2 : ℕ) ^ dist * 2 ^ (64 - dist) = 2 ^ 64 := by
    rw [← pow_add]
    congr 1
    omega
  have hmodlt : hi % 2 ^ dist < 2 ^ dist := Nat.mod_lt _ (Nat.two_pow_pos _)
  have hb : lo / 2 ^ dist < 2 ^ (64 - dist) := by
    rw [Nat.div_lt_iff_lt_mul (Nat.two_pow_pos _)]
    calc lo < 2 ^ 64 := hlo
      _ = 2 ^ (64 - dist) * 2 ^ dist := by rw [← pow_add]; congr 1; omega
  have hmul_pred : ∀ X Y : ℕ, 1 ≤ Y → X * (Y - 1) + X = X * Y := by
    intro X Y hY
    cases Y with
    | zero => omega
    | succ n => simp [Nat.mul_succ]
  have hsumlt : 2 ^ (64 - dist) * (hi % 2 ^ dist) + lo / 2 ^ dist < 2 ^ 64 := by
    have h1 : 2 ^ (64 - dist) * (hi % 2 ^ dist) ≤
        2 ^ (64 - dist) * (2 ^ dist - 1) :=
      Nat.mul_le_mul_left _ (by omega)
    have h2 := hmul_pred (2 ^ (64 - dist)) (2 ^ dist) (Nat.two_pow_pos _)
    have h3 : 2 ^ (64 - dist) * 2 ^ dist = 2 ^ 64 := by
      rw [mul_comm]; exact hpow
    omega
  unfold shiftright128
  rw [Nat.shiftLeft_eq, Nat.shiftRight_eq_div_pow]
  have hsplit : hi * 2 ^ (64 - dist) % 2 ^ 64 =
      2 ^ (64 - dist) * (hi % 2 ^ dist) := by
    conv_lhs => rw [← Nat.div_add_mod hi (2 ^ dist)]
    rw [Nat.add_mul, mul_right_comm, hpow, Nat.mul_add_mod]
    rw [mul_comm (hi % 2 ^ dist) (2 ^ (64 - dist))]
    exact Nat.mod_eq_of_lt
      (Nat.lt_of_le_of_lt (Nat.le_add_right _ _) hsumlt)
  rw [hsplit, ← Nat.mul_add_lt_is_or hb (hi % 2 ^ dist)]
  have hR : (2 ^ 64 * hi + lo) / 2 ^ dist = 2 ^ (64 - dist) * hi + lo / 2 ^ dist := by
    rw [show (2 : ℕ) ^ 64 * hi = 2 ^ dist * (2 ^ (64 - dist) * hi) by
      rw [← mul_assoc, hpow]]
    rw [Nat.add_comm, Nat.add_mul_div_left _ _ (Nat.two_pow_pos dist), Nat.add_comm]
  rw [hR]
  conv_rhs => rw [← Nat.div_add_mod hi (2 ^ dist)]
  rw [Nat.mul_add, ← mul_assoc, mul_comm (2 ^ (64 - dist)) (2 ^ dist), hpow,
    add_assoc, Nat.mul_add_mod]
  exact (Nat.mod_eq_of_lt hsumlt).symm

theorem div_pow_split (N j : ℕ) (hj : 64 ≤ j) :
    N / 2 ^ 64 / 2 ^ (j - 64) = N / 2 ^ j := by
  rw [Nat.div_div_eq_div_mul, ← pow_add, Nat.add_sub_cancel' hj]

/-- The intrinsics-branch `__mulShift` computes
`(x * (mul1 + 2^64 * mul2) / 2^j) mod 2^64`. -/
theorem mulShift_spec (x mul1 mul2 j : ℕ) (hx : x < 2 ^ 64) (h1 : mul1 < 2 ^ 64)
    (h2 : mul2 < 2 ^ 60) (hj1 : 115 ≤ j) (hj2 : j < 128) :
    mulShift x mul1 mul2 j = x * (mul1 + 2 ^ 64 * mul2) / 2 ^ j % 2 ^ 64 := by
  have hh0 : x * mul1 / 2 ^ 64 < 2 ^ 64 := by
    rw [Nat.div_lt_iff_lt_mul (Nat.two_pow_pos _)]
    exact mul_lt_mul'' hx h1 (Nat.zero_le _) (Nat.zero_le _)
  have hh1 : x * mul2 / 2 ^ 64 < 2 ^ 60 := by
    rw [Nat.div_lt_iff_lt_mul (Nat.two_pow_pos _)]
    calc x * mul2 < 2 ^ 64 * 2 ^ 60 :=
          mul_lt_mul'' hx h2 (Nat.zero_le _) (Nat.zero_le _)
      _ = 2 ^ 60 * 2 ^ 64 := by ring
  have hxM : x * (mul1 + 2 ^ 64 * mul2) = x * mul1 + 2 ^ 64 * (x * mul2) := by
    ring
  have hd64 : (x * mul1 + 2 ^ 64 * (x * mul2)) / 2 ^ 64 =
      x * mul1 / 2 ^ 64 + x * mul2 :=
    Nat.add_mul_div_left _ _ (Nat.two_pow_pos _)
  simp only [mulShift]
  rw [hxM, ← div_pow_split _ j (by omega), hd64]
  have hcarry := mod64_carry (x * mul1 / 2 ^ 64 + x * mul2 % 2 ^ 64)
    (x * mul1 / 2 ^ 64) (Nat.le_add_right _ _)
    (by have := Nat.mod_lt (x * mul2) (Nat.two_pow_pos 64); omega) hh0
  by_cases hc : (x * mul1 / 2 ^ 64 + x * mul2 % 2 ^ 64) % 2 ^ 64 <
      x * mul1 / 2 ^ 64
  · rw [if_pos hc, Nat.mod_eq_of_lt (show x * mul2 / 2 ^ 64 + 1 < 2 ^ 64 by omega)]
    rw [shiftright128_spec _ _ _ (Nat.mod_lt _ (Nat.two_pow_pos _))
      (by omega) (by omega) (by omega)]
    congr 2
    omega
  · rw [if_neg hc]
    rw [shiftright128_spec _ _ _ (Nat.mod_lt _ (Nat.two_pow_pos _))
      (by omega) (by omega) (by omega)]
    congr 2
    omega

/-- `__mulShift` under the claim C4 ranges: the result is exactly
`⌊x * M / 2^j⌋` and fits in 64 bits. -/
theorem mulShift_floor (x mul1 mul2 j : ℕ) (hx : x < 2 ^ 55) (h1 : mul1 < 2 ^ 64)
    (h2 : mul2 < 2 ^ 60) (hj1 : 115 ≤ j) (hj2 : j < 128) :
    mulShift x mul1 mul2 j = x * (mul1 + 2 ^ 64 * mul2) / 2 ^ j ∧
      x * (mul1 + 2 ^ 64 * mul2) / 2 ^ j < 2 ^ 64 := by
  have hprod : x * (mul1 + 2 ^ 64 * mul2) < 2 ^ 179 := by
    calc x * (mul1 + 2 ^ 64 * mul2) ≤ (2 ^ 55 - 1) * (2 ^ 124 - 1) :=
          Nat.mul_le_mul (by omega) (by omega)
      _ < 2 ^ 179 := by norm_num
  have hlt : x * (mul1 + 2 ^ 64 * mul2) / 2 ^ j < 2 ^ 64 := by
    rw [Nat.div_lt_iff_lt_mul (Nat.two_pow_pos _)]
    calc x * (mul1 + 2 ^ 64 * mul2) < 2 ^ 179 := hprod
      _ ≤ 2 ^ (64 + j) := Nat.pow_le_pow_right (by norm_num) (by omega)
      _ = 2 ^ 64 * 2 ^ j := by rw [pow_add]
  refine ⟨?_, hlt⟩
  rw [mulShift_spec x mul1 mul2 j (by omega) h1 h2 hj1 hj2]
  exact Nat.mod_eq_of_lt hlt

/-- The intrinsics branch of `__mulShiftAll` computes the floor triple of
claim C4. -/
theorem mulShiftAll_spec (m mul1 mul2 j mmShift : ℕ) (hm1 : 1 ≤ m)
    (hm : m < 2 ^ 53) (h1 : mul1 < 2 ^ 64) (h2 : mul2 < 2 ^ 60)
    (hj1 : 115 ≤ j) (hj2 : j < 128) (hs : mmShift ≤ 1) :
    mulShiftAll m mul1 mul2 j mmShift =
      (4 * m * (mul1 + 2 ^ 64 * mul2) / 2 ^ j,
       (4 * m + 2) * (mul1 + 2 ^ 64 * mul2) / 2 ^ j,
       (4 * m - 1 - mmShift) * (mul1 + 2 ^ 64 * mul2) / 2 ^ j) := by
  unfold mulShiftAll
  rw [show 4 * m % 2 ^ 64 = 4 * m by omega]
  rw [show (4 * m + 2) % 2 ^ 64 = 4 * m + 2 by omega]
  rw [show (4 * m + (2 ^ 64 - 1 - mmShift)) % 2 ^ 64 = 4 * m - 1 - mmShift by
    omega]
  rw [(mulShift_floor (4 * m) mul1 mul2 j (by omega) h1 h2 hj1 hj2).1,
    (mulShift_floor (4 * m + 2) mul1 mul2 j (by omega) h1 h2 hj1 hj2).1,
    (mulShift_floor (4 * m - 1 - mmShift) mul1 mul2 j (by omega) h1 h2 hj1
      hj2).1]


theorem mod64_lt (x : ℕ) : x % 2 ^ 64 < 2 ^ 64 := Nat.mod_lt _ (Nat.two_pow_pos _)

/-- The three 64-bit limbs produced by the fallback branch's opening
`__ryu_umul128` pair represent `a * (mul1 + 2^64 * mul2)` exactly, the high
limb is small, and the top two limbs represent the product shifted right by
64 bits. -/
theorem mul192_limbs (a mul1 mul2 : ℕ) (ha : a ≤ 2 ^ 54) (h1 : mul1 < 2 ^ 64)
    (h2 : mul2 < 2 ^ 60) :
    a * mul1 % 2 ^ 64 +
      2 ^ 64 * ((a * mul1 / 2 ^ 64 + a * mul2 % 2 ^ 64) % 2 ^ 64) +
      2 ^ 128 * ((a * mul2 / 2 ^ 64 +
        if (a * mul1 / 2 ^ 64 + a * mul2 % 2 ^ 64) % 2 ^ 64 <
          a * mul1 / 2 ^ 64 then 1 else 0) % 2 ^ 64) =
      a * (mul1 + 2 ^ 64 * mul2) ∧
    (a * mul2 / 2 ^ 64 +
      if (a * mul1 / 2 ^ 64 + a * mul2 % 2 ^ 64) % 2 ^ 64 <
        a * mul1 / 2 ^ 64 then 1 else 0) % 2 ^ 64 ≤ 2 ^ 60 ∧
    2 ^ 64 * ((a * mul2 / 2 ^ 64 +
      if (a * mul1 / 2 ^ 64 + a * mul2 % 2 ^ 64) % 2 ^ 64 <
        a * mul1 / 2 ^ 64 then 1 else 0) % 2 ^ 64) +
      (a * mul1 / 2 ^ 64 + a * mul2 % 2 ^ 64) % 2 ^ 64 =
      a * (mul1 + 2 ^ 64 * mul2) / 2 ^ 64 := by
  have hexp : a * (mul1 + 2 ^ 64 * mul2) = a * mul1 + 2 ^ 64 * (a * mul2) := by
    ring
  have hA : a * mul1 ≤ 2 ^ 54 * 2 ^ 64 := Nat.mul_le_mul ha (by omega)
  have hB : a * mul2 ≤ 2 ^ 54 * 2 ^ 60 := Nat.mul_le_mul ha (by omega)
  have hc := mod64_carry (a * mul1 / 2 ^ 64 + a * mul2 % 2 ^ 64)
    (a * mul1 / 2 ^ 64) (Nat.le_add_right _ _) (by omega) (by omega)
  generalize hmid : (a * mul1 / 2 ^ 64 + a * mul2 % 2 ^ 64) % 2 ^ 64 = mid at hc ⊢
  generalize hc1 : (if mid < a * mul1 / 2 ^ 64 then 1 else 0 : ℕ) = c1 at hc ⊢
  have hc1le : c1 ≤ 1 := by rw [← hc1]; split_ifs <;> omega
  have hhieq : (a * mul2 / 2 ^ 64 + c1) % 2 ^ 64 = a * mul2 / 2 ^ 64 + c1 :=
    Nat.mod_eq_of_lt (by omega)
  rw [hhieq, hexp]
  omega

/-- Shifting the top two limbs of a 192-bit value right by `0 < d < 64`. -/
theorem limbs_shift (mid hi W R d : ℕ) (hW : 2 ^ 64 * hi + mid = W)
    (hmid : mid < 2 ^ 64) (hhi : hi < 2 ^ 64) (hd1 : 0 < d) (hd2 : d < 64)
    (hR : W / 2 ^ d % 2 ^ 64 = R) :
    shiftright128 mid hi d = R := by
  rw [shiftright128_spec mid hi d hmid hhi hd1 hd2, hW, hR]

/-- The fallback branch's add-then-shift step (used for `vp`): adding the
128-bit multiplier to a 192-bit value via carries, then shifting. -/
theorem add192_shift (lo mid hi mul1 mul2 V R d : ℕ)
    (hV : lo + 2 ^ 64 * mid + 2 ^ 128 * hi = V)
    (hlo : lo < 2 ^ 64) (hmid : mid < 2 ^ 64) (hhi : hi ≤ 2 ^ 62)
    (h1 : mul1 < 2 ^ 64) (h2 : mul2 < 2 ^ 60) (hd1 : 0 < d) (hd2 : d < 64)
    (hR : (V + (mul1 + 2 ^ 64 * mul2)) / 2 ^ 64 / 2 ^ d % 2 ^ 64 = R) :
    shiftright128
      ((mid + mul2 + if (lo + mul1) % 2 ^ 64 < lo then 1 else 0) % 2 ^ 64)
      ((hi + if (mid + mul2 + if (lo + mul1) % 2 ^ 64 < lo then 1 else 0) %
          2 ^ 64 < mid then 1 else 0) % 2 ^ 64) d = R := by
  have hcp := mod64_carry (lo + mul1) lo (Nat.le_add_right _ _) (by omega) hlo
  generalize hlo2 : (lo + mul1) % 2 ^ 64 = lo2 at hcp ⊢
  have hlo2lt : lo2 < 2 ^ 64 := by rw [← hlo2]; exact mod64_lt _
  generalize hcc1 : (if lo2 < lo then 1 else 0 : ℕ) = cp at hcp ⊢
  have hcple : cp ≤ 1 := by rw [← hcc1]; split_ifs <;> omega
  have hc2 := mod64_carry (mid + mul2 + cp) mid (by omega) (by omega) hmid
  generalize hmid2 : (mid + mul2 + cp) % 2 ^ 64 = mid2 at hc2 ⊢
  have hmid2lt : mid2 < 2 ^ 64 := by rw [← hmid2]; exact mod64_lt _
  generalize hcc2 : (if mid2 < mid then 1 else 0 : ℕ) = c2 at hc2 ⊢
  have hc2le : c2 ≤ 1 := by rw [← hcc2]; split_ifs <;> omega
  have hhi2eq : (hi + c2) % 2 ^ 64 = hi + c2 := Nat.mod_eq_of_lt (by omega)
  rw [hhi2eq]
  refine limbs_shift _ _ _ _ _ ?_ hmid2lt (by omega) hd1 hd2 hR
  omega

/-- The fallback branch's subtract-then-shift step (used for `vm`):
subtracting the 128-bit multiplier from a 192-bit value via borrows, then
shifting.  The borrow out of the high limb never fires because `V ≥ 2*M`. -/
theorem sub192_shift (lo mid hi mul1 mul2 V R d : ℕ)
    (hV : lo + 2 ^ 64 * mid + 2 ^ 128 * hi = V)
    (hlo : lo < 2 ^ 64) (hmid : mid < 2 ^ 64) (hhi : hi ≤ 2 ^ 62)
    (h1 : mul1 < 2 ^ 64) (h2 : mul2 < 2 ^ 60)
    (hge : 2 * (mul1 + 2 ^ 64 * mul2) ≤ V)
    (hd1 : 0 < d) (hd2 : d < 64)
    (hR : (V - (mul1 + 2 ^ 64 * mul2)) / 2 ^ 64 / 2 ^ d % 2 ^ 64 = R) :
    shiftright128
      ((mid + 2 ^ 64 - mul2 + 2 ^ 64 -
        (if (lo + 2 ^ 64 - mul1) % 2 ^ 64 > lo then 1 else 0)) % 2 ^ 64)
      ((hi + 2 ^ 64 -
        (if (mid + 2 ^ 64 - mul2 + 2 ^ 64 -
            (if (lo + 2 ^ 64 - mul1) % 2 ^ 64 > lo then 1 else 0)) % 2 ^ 64 >
            mid then 1 else 0)) % 2 ^ 64) d = R := by
  have hb1 := mod64_borrow lo mul1 hlo h1
  generalize hlo3 : (lo + 2 ^ 64 - mul1) % 2 ^ 64 = lo3 at hb1 ⊢
  have hlo3lt : lo3 < 2 ^ 64 := by rw [← hlo3]; exact mod64_lt _
  generalize hbb1 : (if lo3 > lo then 1 else 0 : ℕ) = b1 at hb1 ⊢
  have hb1le : b1 ≤ 1 := by rw [← hbb1]; split_ifs <;> omega
  rw [mod64_sub2_norm mid mul2 b1 (by omega) hb1le]
  have hb2 := mod64_borrow mid (mul2 + b1) hmid (by omega)
  generalize hmid3 : (mid + 2 ^ 64 - (mul2 + b1)) % 2 ^ 64 = mid3 at hb2 ⊢
  have hmid3lt : mid3 < 2 ^ 64 := by rw [← hmid3]; exact mod64_lt _
  generalize hbb2 : (if mid3 > mid then 1 else 0 : ℕ) = b2 at hb2 ⊢
  have hb2le : b2 ≤ 1 := by rw [← hbb2]; split_ifs <;> omega
  have hb2hi : b2 ≤ hi := by
    by_contra hcon
    omega
  have hhi3eq : (hi + 2 ^ 64 - b2) % 2 ^ 64 = hi - b2 := by omega
  rw [hhi3eq]
  refine limbs_shift _ _ _ _ _ ?_ hmid3lt (by omega) hd1 hd2 hR
  omega

/-- Doubling a 192-bit value limb-wise.  The carry out of the middle limb is
detected correctly because the low 128 bits stay below `2^128 - 2^63`. -/
theorem double192_limbs (lo mid hi V : ℕ)
    (hV : lo + 2 ^ 64 * mid + 2 ^ 128 * hi = V) (hlo : lo < 2 ^ 64)
    (hmid : mid < 2 ^ 64) (hhi : hi ≤ 2 ^ 60)
    (hanom : V % 2 ^ 128 < 2 ^ 128 - 2 ^ 63) :
    (lo + lo) % 2 ^ 64 +
      2 ^ 64 * ((mid + mid + if (lo + lo) % 2 ^ 64 < lo then 1 else 0) %
        2 ^ 64) +
      2 ^ 128 * ((hi + hi +
        if (mid + mid + if (lo + lo) % 2 ^ 64 < lo then 1 else 0) % 2 ^ 64 <
          mid then 1 else 0) % 2 ^ 64) = 2 * V ∧
    (hi + hi +
      if (mid + mid + if (lo + lo) % 2 ^ 64 < lo then 1 else 0) % 2 ^ 64 <
        mid then 1 else 0) % 2 ^ 64 ≤ 2 ^ 62 := by
  have hVlow : V % 2 ^ 128 = lo + 2 ^ 64 * mid := by omega
  have hcl := mod64_carry (lo + lo) lo (Nat.le_add_right _ _) (by omega) hlo
  generalize hlo3 : (lo + lo) % 2 ^ 64 = lo3 at hcl ⊢
  generalize hcc1 : (if lo3 < lo then 1 else 0 : ℕ) = c1d at hcl ⊢
  have hc1dle : c1d ≤ 1 := by rw [← hcc1]; split_ifs <;> omega
  have hmidc : mid + c1d < 2 ^ 64 := by omega
  have hcm := mod64_carry (mid + mid + c1d) mid (by omega) (by omega) hmid
  generalize hmid3 : (mid + mid + c1d) % 2 ^ 64 = mid3 at hcm ⊢
  generalize hcc2 : (if mid3 < mid then 1 else 0 : ℕ) = c2d at hcm ⊢
  have hc2dle : c2d ≤ 1 := by rw [← hcc2]; split_ifs <;> omega
  have hhi3eq : (hi + hi + c2d) % 2 ^ 64 = hi + hi + c2d :=
    Nat.mod_eq_of_lt (by omega)
  rw [hhi3eq]
  omega

/-- The intrinsics-unavailable branch of `__mulShiftAll` computes the same
floor triple, provided the doubling step of the `mmShift == 0` path does not
lose a carry (which requires the low 128 bits of `2*m*M` to stay below
`2^128 - 2^63`). -/
theorem mulShiftAllFallback_spec (m mul1 mul2 j mmShift : ℕ) (hm1 : 1 ≤ m)
    (hm : m < 2 ^ 53) (h1 : mul1 < 2 ^ 64) (h2 : mul2 < 2 ^ 60)
    (hj1 : 115 ≤ j) (hj2 : j < 128) (hs : mmShift ≤ 1)
    (hnc : mmShift = 1 ∨
      2 * m * (mul1 + 2 ^ 64 * mul2) % 2 ^ 128 < 2 ^ 128 - 2 ^ 63) :
    mulShiftAllFallback m mul1 mul2 j mmShift =
      (4 * m * (mul1 + 2 ^ 64 * mul2) / 2 ^ j,
       (4 * m + 2) * (mul1 + 2 ^ 64 * mul2) / 2 ^ j,
       (4 * m - 1 - mmShift) * (mul1 + 2 ^ 64 * mul2) / 2 ^ j) := by
  have hboundr := (mulShift_floor (4 * m) mul1 mul2 j (by omega) h1 h2 hj1 hj2).2
  have hboundp :=
    (mulShift_floor (4 * m + 2) mul1 mul2 j (by omega) h1 h2 hj1 hj2).2
  have hboundm0 :=
    (mulShift_floor (4 * m - 1) mul1 mul2 j (by omega) h1 h2 hj1 hj2).2
  have hboundm1 :=
    (mulShift_floor (4 * m - 2) mul1 mul2 j (by omega) h1 h2 hj1 hj2).2
  have hP2M : 2 * (mul1 + 2 ^ 64 * mul2) ≤ 2 * m * (mul1 + 2 ^ 64 * mul2) :=
    Nat.mul_le_mul_right _ (by omega)
  have h2j : (2 : ℕ) ^ j = 2 * 2 ^ (j - 1) := by
    conv_lhs => rw [show j = j - 1 + 1 by omega]
    rw [pow_succ]; ring
  have hsplit1 : ∀ N : ℕ, N / 2 ^ 64 / 2 ^ (j - 64 - 1) = N / 2 ^ (j - 1) := by
    intro N
    rw [Nat.div_div_eq_div_mul, ← pow_add,
      show 64 + (j - 64 - 1) = j - 1 by omega]
  have hdouble : ∀ N : ℕ, N / 2 ^ (j - 1) = 2 * N / 2 ^ j := by
    intro N
    rw [h2j, Nat.mul_div_mul_left _ _ (by norm_num : (0 : ℕ) < 2)]
  have hRr : 2 * m * (mul1 + 2 ^ 64 * mul2) / 2 ^ 64 / 2 ^ (j - 64 - 1) %
      2 ^ 64 = 4 * m * (mul1 + 2 ^ 64 * mul2) / 2 ^ j := by
    rw [hsplit1, hdouble,
      show 2 * (2 * m * (mul1 + 2 ^ 64 * mul2)) =
        4 * m * (mul1 + 2 ^ 64 * mul2) by ring]
    exact Nat.mod_eq_of_lt hboundr
  have hRp : (2 * m * (mul1 + 2 ^ 64 * mul2) + (mul1 + 2 ^ 64 * mul2)) /
      2 ^ 64 / 2 ^ (j - 64 - 1) % 2 ^ 64 =
      (4 * m + 2) * (mul1 + 2 ^ 64 * mul2) / 2 ^ j := by
    rw [hsplit1, hdouble,
      show 2 * (2 * m * (mul1 + 2 ^ 64 * mul2) + (mul1 + 2 ^ 64 * mul2)) =
        (4 * m + 2) * (mul1 + 2 ^ 64 * mul2) by ring]
    exact Nat.mod_eq_of_lt hboundp
  have hRm1 : (2 * m * (mul1 + 2 ^ 64 * mul2) - (mul1 + 2 ^ 64 * mul2)) /
      2 ^ 64 / 2 ^ (j - 64 - 1) % 2 ^ 64 =
      (4 * m - 1 - 1) * (mul1 + 2 ^ 64 * mul2) / 2 ^ j := by
    rw [hsplit1, hdouble,
      show 2 * (2 * m * (mul1 + 2 ^ 64 * mul2) - (mul1 + 2 ^ 64 * mul2)) =
        (4 * m - 1 - 1) * (mul1 + 2 ^ 64 * mul2) by
      rw [show (4 * m - 1 - 1) = 4 * m - 2 by omega, Nat.mul_sub, Nat.sub_mul,
        show 2 * (2 * m * (mul1 + 2 ^ 64 * mul2)) =
          4 * m * (mul1 + 2 ^ 64 * mul2) by ring]]
    rw [show (4 * m - 1 - 1) = 4 * m - 2 by omega]
    exact Nat.mod_eq_of_lt hboundm1
  have hRm0 : (2 * (2 * m * (mul1 + 2 ^ 64 * mul2)) -
      (mul1 + 2 ^ 64 * mul2)) / 2 ^ 64 / 2 ^ (j - 64) % 2 ^ 64 =
      (4 * m - 1 - 0) * (mul1 + 2 ^ 64 * mul2) / 2 ^ j := by
    rw [div_pow_split _ j (by omega),
      show 2 * (2 * m * (mul1 + 2 ^ 64 * mul2)) - (mul1 + 2 ^ 64 * mul2) =
        (4 * m - 1 - 0) * (mul1 + 2 ^ 64 * mul2) by
      rw [show (4 * m - 1 - 0) = 4 * m - 1 by omega, Nat.sub_mul, one_mul,
        show 2 * (2 * m * (mul1 + 2 ^ 64 * mul2)) =
          4 * m * (mul1 + 2 ^ 64 * mul2) by ring]]
    rw [show (4 * m - 1 - 0) = 4 * m - 1 by omega]
    exact Nat.mod_eq_of_lt hboundm0
  have hml := mul192_limbs (2 * m) mul1 mul2 (by omega) h1 h2
  simp only [mulShiftAllFallback]
  rw [show m <<< 1 % 2 ^ 64 = 2 * m by rw [Nat.shiftLeft_eq]; omega]
  rw [limbs_shift _ _ _ _ (j - 64 - 1) hml.2.2 (mod64_lt _)
    (lt_of_le_of_lt hml.2.1 (by norm_num)) (by omega) (by omega) hRr]
  rw [add192_shift _ _ _ mul1 mul2 _ _ (j - 64 - 1) hml.1 (mod64_lt _)
    (mod64_lt _) (le_trans hml.2.1 (by norm_num)) h1 h2 (by omega) (by omega)
    hRp]
  simp only [Prod.mk.injEq]
  refine ⟨trivial, trivial, ?_⟩
  obtain rfl | rfl : mmShift = 0 ∨ mmShift = 1 := by omega
  · rw [if_neg (show ¬ (((0 : ℕ) == 1) = true) by decide)]
    have hncP : 2 * m * (mul1 + 2 ^ 64 * mul2) % 2 ^ 128 <
        2 ^ 128 - 2 ^ 63 := by
      rcases hnc with h | h
      · omega
      · exact h
    have hdbl := double192_limbs _ _ _ _ hml.1 (mod64_lt _) (mod64_lt _)
      hml.2.1 hncP
    exact sub192_shift _ _ _ mul1 mul2 _ _ (j - 64) hdbl.1 (mod64_lt _)
      (mod64_lt _) hdbl.2 h1 h2
      (le_trans hP2M (Nat.le_mul_of_pos_left _ (by norm_num))) (by omega)
      (by omega) hRm0
  · rw [if_pos (show (((1 : ℕ) == 1) = true) by decide)]
    exact sub192_shift _ _ _ mul1 mul2 _ _ (j - 64 - 1) hml.1 (mod64_lt _)
      (mod64_lt _) (le_trans hml.2.1 (by norm_num)) h1 h2 hP2M (by omega)
      (by omega) hRm1

/-- C4 (amended): over the claimed ranges — `1 ≤ m < 2^53`, 128-bit multiplier
`M = mul1 + 2^64 * mul2` with `mul2 < 2^60` (so `M < 2^124`), `115 ≤ j < 128`,
`mmShift ≤ 1` — and provided additionally that `mmShift = 1` or the low
128 bits of `2*m*M` stay below `2^128 - 2^63` (otherwise the fallback
branch's limb-doubling step loses a carry, see the counterexample), the two
platform branches of `__mulShiftAll` agree, both equal the floor triple
`(⌊4m*M/2^j⌋, ⌊(4m+2)*M/2^j⌋, ⌊(4m-1-mmShift)*M/2^j⌋)`, and each component
fits in 64 bits. -/
theorem mulShiftAll_branch_equivalence (m mul1 mul2 j mmShift : ℕ)
    (hm1 : 1 ≤ m) (hm : m < 2 ^ 53) (h1 : mul1 < 2 ^ 64) (h2 : mul2 < 2 ^ 60)
    (hj1 : 115 ≤ j) (hj2 : j < 128) (hs : mmShift ≤ 1)
    (hnc : mmShift = 1 ∨
      2 * m * (mul1 + 2 ^ 64 * mul2) % 2 ^ 128 < 2 ^ 128 - 2 ^ 63) :
    mulShiftAllFallback m mul1 mul2 j mmShift =
      mulShiftAll m mul1 mul2 j mmShift ∧
    mulShiftAll m mul1 mul2 j mmShift =
      (4 * m * (mul1 + 2 ^ 64 * mul2) / 2 ^ j,
       (4 * m + 2) * (mul1 + 2 ^ 64 * mul2) / 2 ^ j,
       (4 * m - 1 - mmShift) * (mul1 + 2 ^ 64 * mul2) / 2 ^ j) ∧
    4 * m * (mul1 + 2 ^ 64 * mul2) / 2 ^ j < 2 ^ 64 ∧
    (4 * m + 2) * (mul1 + 2 ^ 64 * mul2) / 2 ^ j < 2 ^ 64 ∧
    (4 * m - 1 - mmShift) * (mul1 + 2 ^ 64 * mul2) / 2 ^ j < 2 ^ 64 := by
  have hall := mulShiftAll_spec m mul1 mul2 j mmShift hm1 hm h1 h2 hj1 hj2 hs
  have hfall := mulShiftAllFallback_spec m mul1 mul2 j mmShift hm1 hm h1 h2
    hj1 hj2 hs hnc
  refine ⟨hfall.trans hall.symm, hall, ?_, ?_, ?_⟩
  · exact (mulShift_floor (4 * m) mul1 mul2 j (by omega) h1 h2 hj1 hj2).2
  · exact (mulShift_floor (4 * m + 2) mul1 mul2 j (by omega) h1 h2 hj1 hj2).2
  · exact (mulShift_floor (4 * m - 1 - mmShift) mul1 mul2 j (by omega) h1 h2
      hj1 hj2).2

/-- C4 counterexample: at `m = 2^52`, `mul = (2^64 - 1, 2^11 - 1)`
(so `M = 2^75 - 1`), `j = 115`, `mmShift = 0`, the fallback branch disagrees
with the intrinsics branch: doubling the 192-bit product limb-wise loses the
carry out of the middle limb (the low 128 bits of `2*m*M` are
`≥ 2^128 - 2^63`), so the fallback `vm` is 8191 while the intrinsics branch
returns the correct floor 16383. -/
theorem mulShiftAll_branch_counterexample :
    mulShiftAllFallback (2 ^ 52) (2 ^ 64 - 1) (2 ^ 11 - 1) 115 0 ≠
      mulShiftAll (2 ^ 52) (2 ^ 64 - 1) (2 ^ 11 - 1) 115 0 ∧
    (mulShiftAllFallback (2 ^ 52) (2 ^ 64 - 1) (2 ^ 11 - 1) 115 0).2.2 =
      8191 ∧
    (mulShiftAll (2 ^ 52) (2 ^ 64 - 1) (2 ^ 11 - 1) 115 0).2.2 = 16383 ∧
    (4 * 2 ^ 52 - 1 - 0) * ((2 ^ 64 - 1) + 2 ^ 64 * (2 ^ 11 - 1)) / 2 ^ 115 =
      16383 := by
  refine ⟨by decide, by decide, by decide, by decide⟩

/-- Witness for the C4 theorem at `m = 1`, `mul = (1, 1)`, `j = 115`,
`mmShift = 1`. -/
theorem mulShiftAll_branch_equivalence_witness :
    mulShiftAllFallback 1 1 1 115 1 = mulShiftAll 1 1 1 115 1 ∧
    mulShiftAll 1 1 1 115 1 =
      (4 * 1 * (1 + 2 ^ 64 * 1) / 2 ^ 115,
       (4 * 1 + 2) * (1 + 2 ^ 64 * 1) / 2 ^ 115,
       (4 * 1 - 1 - 1) * (1 + 2 ^ 64 * 1) / 2 ^ 115) ∧
    4 * 1 * (1 + 2 ^ 64 * 1) / 2 ^ 115 < 2 ^ 64 ∧
    (4 * 1 + 2) * (1 + 2 ^ 64 * 1) / 2 ^ 115 < 2 ^ 64 ∧
    (4 * 1 - 1 - 1) * (1 + 2 ^ 64 * 1) / 2 ^ 115 < 2 ^ 64 :=
  mulShiftAll_branch_equivalence 1 1 1 115 1 (by norm_num) (by norm_num)
    (by norm_num) (by norm_num) (by norm_num) (by norm_num) (by norm_num)
    (Or.inl rfl)

/-! ## The printing pipeline: `__to_chars` and `__d2s_buffered_n`
(src/ryu/d2s.c, lines 317-741)

Buffers are embedded as `List Char` of exactly the length the routine is
about to fill (`_Total_fixed_length` / `_Total_scientific_length`), writes as
`List.set`; the caller-buffer-too-small checks (`errc::value_too_large`) are
not modelled.  A call into `__d2fixed_buffered_n` (whose digit generation
needs the `__POW10_SPLIT` tables, which are not part of the sources under
`src/`) is recorded as the `fixedDelegate` marker instead of being expanded,
and likewise `__d2s_buffered_n`'s call into `__d2d` is recorded as `none`. -/

/-- Modelled from the spec: `__DIGIT_TABLE` is the 200-character table of the
two-digit decimal strings `"00" "01" ... "99"` (its definition lives in a
header that is not among the sources under `src/`). -/
def DIGIT_TABLE : List Char :=
  ("00010203040506070809101112131415161718192021222324252627282930313233343536373839404142434445464748495051525354555657585960616263646566676869707172737475767778798081828384858687888990919293949596979899").toList

/-- `memcpy(buf + i, __DIGIT_TABLE + off, 2)`. -/
def copyPair (buf : List Char) (i off : ℕ) : List Char :=
  (buf.set i (DIGIT_TABLE.getD off '0')).set (i + 1) (DIGIT_TABLE.getD (off + 1) '0')

/-- `memset(buf + start, c, n)`. -/
def memsetChars (buf : List Char) (start n : ℕ) (c : Char) : List Char :=
  match n with
  | 0 => buf
  | Nat.succ k => memsetChars (buf.set start c) (start + 1) k c

/-- `memmove(_First, _First + 1, n)`: positions `0..n-1` receive the old
positions `1..n`, everything from position `n` on is unchanged. -/
def moveChars (buf : List Char) (n : ℕ) : List Char :=
  (buf.drop 1).take n ++ buf.drop n

/-- The `_Adjustment[309]` table of `__to_chars` (src/ryu/d2s.c,
lines 390-398). -/
def Adjustment : List ℕ :=
  [0,0,0,0,0,0,0,0,0,0,0,0,0,0,0,0,0,0,0,0,0,0,0,1,1,0,0,0,1,1,0,1,0,1,1,
   1,0,1,1,1,0,0,0,0,0,1,1,0,0,1,0,1,1,1,0,0,0,0,1,1,1,1,0,0,0,1,1,1,1,0,
   0,0,1,1,1,1,0,1,0,1,0,1,1,0,0,0,0,1,1,1,1,0,0,0,0,0,0,0,1,1,0,1,1,0,0,
   1,0,1,0,1,0,1,1,0,0,0,0,0,1,1,1,0,0,1,1,1,1,1,0,1,0,1,1,0,1,1,0,0,0,0,
   0,0,0,0,0,1,1,1,0,0,1,0,0,1,0,0,1,1,1,1,0,0,1,1,0,1,1,0,1,1,0,1,0,0,0,
   1,0,0,0,1,0,1,0,1,0,1,1,1,0,0,0,0,0,0,1,1,1,1,0,0,1,0,1,1,1,0,0,0,1,0,
   1,1,1,1,1,1,0,1,0,1,1,0,0,0,1,1,1,0,1,1,0,0,0,1,0,0,0,1,0,1,0,0,0,0,0,
   0,0,1,0,1,1,0,0,1,1,1,0,0,0,1,0,1,0,0,0,0,0,1,1,0,0,1,0,1,1,1,0,0,1,0,
   0,0,0,1,0,1,0,0,0,0,0,1,0,1,0,1,1,0,1,0,0,0,0,0,1,1,0,1,0]

/-- The `_Max_shifted_mantissa[23]` table of `__to_chars` (src/ryu/d2s.c,
lines 437-440): `(2^53 - 1) / 5^e` for `e = 0 .. 22`. -/
def MaxShiftedMantissa : List ℕ :=
  [9007199254740991, 1801439850948198, 360287970189639, 72057594037927,
   14411518807585, 2882303761517, 576460752303, 115292150460, 23058430092,
   4611686018, 922337203, 184467440, 36893488, 7378697, 1475739, 295147,
   59029, 11805, 2361, 472, 94, 18, 3]

/-- Modelled from the spec: `_BitScanForward64(&r, v)` stores in `r` the
index of the lowest set bit of `v` (the intrinsic itself has no C source in
this repository).  Defined by recursion; returns 0 for `v = 0` (the C
intrinsic's output is undefined there, and the call site guarantees
`v != 0`). -/
def bitScanForward64 (v : ℕ) : ℕ :=
  if h : v % 2 = 0 ∧ v ≠ 0 then bitScanForward64 (v / 2) + 1 else 0
decreasing_by
  exact Nat.div_lt_self (Nat.pos_of_ne_zero h.2) (by norm_num)

/-- `chars_format` (the `_Fmt` argument); `empty` is `chars_format{}`. -/
inductive chars_format where
  | scientific : chars_format
  | fixed : chars_format
  | general : chars_format
  | empty : chars_format
deriving DecidableEq

/-- Result of `__to_chars`: either the written characters, or a delegation
`__d2fixed_buffered_n(__f, prec)` (not expanded here; see the section
comment). -/
inductive ToCharsOut where
  | chars : List Char → ToCharsOut
  | fixedDelegate : ℕ → ToCharsOut
deriving DecidableEq

/-- The `while (__output2 >= 10000)` digit loop of the scientific path
(src/ryu/d2s.c, lines 574-587): writes pairs at decreasing offsets from
`__result + __olength`, increasing `__i` by 4 per round.  Returns the buffer
and the final `__i` and `__output2`. -/
def sciEmitLoop (buf : List Char) (olength i output2 : ℕ) :
    List Char × ℕ × ℕ :=
  if h : 10000 ≤ output2 then
    let c := output2 % 10000
    let c0 := c % 100 * 2
    let c1 := c / 100 * 2
    let buf1 := copyPair buf (olength - i - 1) c0
    let buf2 := copyPair buf1 (olength - i - 3) c1
    sciEmitLoop buf2 olength (i + 4) (output2 / 10000)
  else (buf, i, output2)
decreasing_by
  exact Nat.div_lt_self (by omega) (by norm_num)

/-- The `(__output >> 32) != 0` head chunk of the scientific digit region
(src/ryu/d2s.c, lines 552-566): cuts off 8 digits with `__div1e8`.  The
32-bit casts are embedded as `% 2 ^ 32`.  Returns the buffer and the values
of `__i` and `__output` after the chunk. -/
def sciHead (buf0 : List Char) (olength output0 : ℕ) : List Char × ℕ × ℕ :=
  if output0 >>> 32 ≠ 0 then
    let q := div1e8 output0
    let output2 := (output0 % 2 ^ 32 + 2 ^ 32 -
      100000000 * (q % 2 ^ 32) % 2 ^ 32) % 2 ^ 32
    let c := output2 % 10000
    let output2a := output2 / 10000
    let d := output2a % 10000
    let c0 := c % 100 * 2
    let c1 := c / 100 * 2
    let d0 := d % 100 * 2
    let d1 := d / 100 * 2
    let buf1 := copyPair buf0 (olength - 1) c0
    let buf2 := copyPair buf1 (olength - 3) c1
    let buf3 := copyPair buf2 (olength - 5) d0
    let buf4 := copyPair buf3 (olength - 7) d1
    (buf4, 8, q)
  else (buf0, 0, output0)

/-- The `>= 100` / `>= 10` / single-digit tails of the scientific digit
region (src/ryu/d2s.c, lines 588-601). -/
def sciTail (buf : List Char) (olength i output2 : ℕ) : List Char :=
  let after100 :=
    if 100 ≤ output2 then
      (copyPair buf (olength - i - 1) (output2 % 100 * 2), output2 / 100)
    else (buf, output2)
  let buf2 := after100.1
  let output2a := after100.2
  if 10 ≤ output2a then
    let c := output2a * 2
    (buf2.set 2 (DIGIT_TABLE.getD (c + 1) '0')).set 0 (DIGIT_TABLE.getD c '0')
  else
    buf2.set 0 (Char.ofNat (48 + output2a))

/-- The digit region of the scientific path (src/ryu/d2s.c, lines 552-601):
head chunk, the `>= 10000` loop (on `static_cast<uint32_t>(__output)`), and
the tails. -/
def sciDigits (buf0 : List Char) (olength output0 : ℕ) : List Char :=
  let headState := sciHead buf0 olength output0
  let loopState :=
    sciEmitLoop headState.1 olength headState.2.1 (headState.2.2 % 2 ^ 32)
  sciTail loopState.1 olength loopState.2.1 loopState.2.2

/-- The scientific branch of `__to_chars` (src/ryu/d2s.c, lines 543-628):
digits, optional decimal point, then `'e'`, an explicit sign, and two or
three exponent digits. -/
def toCharsScientific (mantissa : ℕ) (exponent : ℤ) : List Char :=
  let output := mantissa
  let olength := decimalLength17 output
  let sciExp : ℤ := exponent + (olength : ℤ) - 1
  let total := olength + (if 1 < olength then 1 else 0) +
    (if -100 < sciExp ∧ sciExp < 100 then 4 else 5)
  let buf1 := sciDigits (List.replicate total '0') olength output
  let buf2 := if 1 < olength then buf1.set 1 '.' else buf1
  let index := if 1 < olength then olength + 1 else 1
  let buf3 := buf2.set index 'e'
  let buf4 := if sciExp < 0 then buf3.set (index + 1) '-'
    else buf3.set (index + 1) '+'
  let expAbs := sciExp.natAbs
  if 100 ≤ expAbs then
    (copyPair buf4 (index + 2) (2 * (expAbs / 10))).set (index + 4)
      (Char.ofNat (48 + expAbs % 10))
  else
    copyPair buf4 (index + 2) (2 * expAbs)

/-- The `while (__output2 >= 10000)` digit loop of the fixed path
(src/ryu/d2s.c, lines 498-509): `memcpy(_Mid -= 2, ...)` twice per round.
Returns the buffer and the final `_Mid` and `__output2`. -/
def fixEmitLoop (buf : List Char) (mid output2 : ℕ) : List Char × ℕ × ℕ :=
  if h : 10000 ≤ output2 then
    let c := output2 % 10000
    let c0 := c % 100 * 2
    let c1 := c / 100 * 2
    let buf1 := copyPair buf (mid - 2) c0
    let buf2 := copyPair buf1 (mid - 4) c1
    fixEmitLoop buf2 (mid - 4) (output2 / 10000)
  else (buf, mid, output2)
decreasing_by
  exact Nat.div_lt_self (by omega) (by norm_num)

/-- The digit region of the fixed path (src/ryu/d2s.c, lines 474-521):
head chunk, `>= 10000` loop and tails, writing right-to-left ending at
`_Mid = mid0`. -/
def fixDigits (buf0 : List Char) (mid0 output0 : ℕ) : List Char :=
  let headState :=
    if output0 >>> 32 ≠ 0 then
      let q := div1e8 output0
      let output2 := (output0 - 100000000 * q) % 2 ^ 32
      let c := output2 % 10000
      let output2a := output2 / 10000
      let d := output2a % 10000
      let c0 := c % 100 * 2
      let c1 := c / 100 * 2
      let d0 := d % 100 * 2
      let d1 := d / 100 * 2
      let buf1 := copyPair buf0 (mid0 - 2) c0
      let buf2 := copyPair buf1 (mid0 - 4) c1
      let buf3 := copyPair buf2 (mid0 - 6) d0
      let buf4 := copyPair buf3 (mid0 - 8) d1
      (buf4, mid0 - 8, q)
    else (buf0, mid0, output0)
  let loopState := fixEmitLoop headState.1 headState.2.1 (headState.2.2 % 2 ^ 32)
  let buf := loopState.1
  let mid := loopState.2.1
  let output2 := loopState.2.2
  let after100 :=
    if 100 ≤ output2 then
      (copyPair buf (mid - 2) (output2 % 100 * 2), mid - 2, output2 / 100)
    else (buf, mid, output2)
  let buf' := after100.1
  let mid' := after100.2.1
  let output2' := after100.2.2
  if 10 ≤ output2' then copyPair buf' (mid' - 2) (output2' * 2)
  else buf'.set (mid' - 1) (Char.ofNat (48 + output2'))

/-- The fixed branch of `__to_chars` (src/ryu/d2s.c, lines 362-541):
`_Total_fixed_length` (with the `__output == 1` `_Adjustment`), the
`_Can_use_ryu` test for `_Ryu_exponent > 0` (delegating to
`__d2fixed_buffered_n(__f, 0)` when it fails), digit emission, and the four
layout cases `"172900"` / `"1729"` / `"17.29"` / `"0.001729"`. -/
def toCharsFixed (mantissa : ℕ) (exponent : ℤ) : ToCharsOut :=
  let output := mantissa
  let olength := decimalLength17 output
  let wholeDigits : ℤ := (olength : ℤ) + exponent
  let totalFixedLength : ℕ :=
    if 0 ≤ exponent then
      wholeDigits.toNat -
        (if output = 1 then Adjustment.getD exponent.toNat 0 else 0)
    else if 0 < wholeDigits then olength + 1
    else (2 - exponent).toNat
  if 0 < exponent then
    let canUseRyu : Bool :=
      if 22 < exponent then false
      else decide (mantissa >>> bitScanForward64 mantissa ≤
        MaxShiftedMantissa.getD exponent.toNat 0)
    if canUseRyu then
      let buf1 := fixDigits (List.replicate totalFixedLength '0') olength output
      ToCharsOut.chars (memsetChars buf1 olength exponent.toNat '0')
    else ToCharsOut.fixedDelegate 0
  else
    let buf1 :=
      fixDigits (List.replicate totalFixedLength '0') totalFixedLength output
    if exponent = 0 then ToCharsOut.chars buf1
    else if 0 < wholeDigits then
      ToCharsOut.chars
        ((moveChars buf1 wholeDigits.toNat).set wholeDigits.toNat '.')
    else
      ToCharsOut.chars
        (memsetChars ((buf1.set 0 '0').set 1 '.') 2 (-wholeDigits).toNat '0')

/-- `__to_chars` (src/ryu/d2s.c, lines 317-628): format resolution
(`chars_format{}` picks fixed iff `_Lower <= _Ryu_exponent <= _Upper`;
`general` iff `-4 <= _Scientific_exponent < 6`), then the fixed or
scientific branch. -/
def to_chars (mantissa : ℕ) (exponent : ℤ) (fmt0 : chars_format) :
    ToCharsOut :=
  let olength := decimalLength17 mantissa
  let sciExp : ℤ := exponent + (olength : ℤ) - 1
  let fmt : chars_format :=
    if fmt0 = chars_format.empty then
      let lower : ℤ := if olength = 1 then -3 else -((olength : ℤ) + 3)
      let upper : ℤ := if olength = 1 then 4 else 5
      if lower ≤ exponent ∧ exponent ≤ upper then chars_format.fixed
      else chars_format.scientific
    else if fmt0 = chars_format.general then
      if -4 ≤ sciExp ∧ sciExp < 6 then chars_format.fixed
      else chars_format.scientific
    else fmt0
  if fmt = chars_format.fixed then toCharsFixed mantissa exponent
  else ToCharsOut.chars (toCharsScientific mantissa exponent)

/-- The trailing-zero-stripping loop of `__d2s_buffered_n` (src/ryu/d2s.c,
lines 717-727).  The C loop would not terminate on mantissa 0; the extra
guard records that the call site guarantees mantissa ≥ 1. -/
def stripZeros (mantissa : ℕ) (exponent : ℤ) : ℕ × ℤ :=
  if h : mantissa % 10 = 0 ∧ mantissa ≠ 0 then
    stripZeros (mantissa / 10) (exponent + 1)
  else (mantissa, exponent)
decreasing_by
  exact Nat.div_lt_self (Nat.pos_of_ne_zero h.2) (by norm_num)

/-- `__d2s_buffered_n` (src/ryu/d2s.c, lines 665-741) for finite inputs:
zero short-circuit (`"0e+00"` for scientific, `"0"` otherwise), the
fixed-format positive-exponent delegation, the `__d2d_small_int` fast path
with trailing-zero stripping, and otherwise the `__d2d` path — returned as
`none` because `__d2d`'s power tables are not among the sources under
`src/`. -/
def d2s_buffered (bits : ℕ) (fmt : chars_format) : Option ToCharsOut :=
  if bits = 0 then
    if fmt = chars_format.scientific then
      some (ToCharsOut.chars ("0e+00").toList)
    else some (ToCharsOut.chars ['0'])
  else
    let ieeeMantissa := bits &&& ((1 <<< 52) - 1)
    let ieeeExponent := bits >>> 52
    if fmt = chars_format.fixed ∧ 0 < (ieeeExponent : ℤ) - 1023 - 52 then
      some (ToCharsOut.fixedDelegate 0)
    else
      match d2d_small_int ieeeMantissa ieeeExponent with
      | some v =>
        let sz := stripZeros v.mantissa v.exponent
        some (to_chars sz.1 sz.2 fmt)
      | none => none

/-- C10: for a subnormal encoding (`ieeeExponent = 0`) with any mantissa,
`__d2d_small_int` returns false without writing through `*__v` (modelled by
`none`, which carries no `floating_decimal_64`), and therefore the entry
dispatch of `__d2s_buffered_n` — which calls it without checking
`ieeeExponent != 0` — falls through to the `__d2d` path (modelled by `none`)
for every nonzero subnormal bit pattern. -/
theorem subnormal_small_int_dispatch :
    (∀ mant : ℕ, d2d_small_int mant 0 = none) ∧
    (∀ bits : ℕ, 1 ≤ bits → bits < 2 ^ 52 →
      d2s_buffered bits chars_format.empty = none) := by
  have hnone : ∀ mant : ℕ, d2d_small_int mant 0 = none := by
    intro mant
    simp only [d2d_small_int]
    rw [if_neg (by norm_num), if_pos (by norm_num)]
  refine ⟨hnone, ?_⟩
  intro bits h1 h2
  simp only [d2s_buffered]
  rw [if_neg (by omega)]
  have hmask : bits &&& ((1 <<< 52) - 1) = bits := by
    have : (1 <<< 52 : ℕ) - 1 = 2 ^ 52 - 1 := by rw [Nat.shiftLeft_eq]; norm_num
    rw [this, Nat.and_pow_two_sub_one_eq_mod, Nat.mod_eq_of_lt h2]
  have hexp : bits >>> 52 = 0 := by
    rw [Nat.shiftRight_eq_div_pow]
    exact Nat.div_eq_of_lt h2
  rw [if_neg (by simp), hmask, hexp, hnone bits]

/-- Witness for C10 at the subnormal bit pattern `bits = 7`
(mantissa 7, `ieeeExponent = 0`). -/
theorem subnormal_small_int_dispatch_witness :
    d2d_small_int 7 0 = none ∧
    d2s_buffered 7 chars_format.empty = none :=
  ⟨subnormal_small_int_dispatch.1 7,
   subnormal_small_int_dispatch.2 7 (by norm_num) (by norm_num)⟩

/-- `n` is exactly representable as the (integral) value of an IEEE binary64:
it is an odd part of at most 53 bits times a power of two.  (Over the
magnitudes reached by the `_Can_use_ryu` test — at most `10^17 * 10^22` —
the binary64 exponent range is not a constraint, so it is not modelled.) -/
def representableBinary64 (n : ℕ) : Prop :=
  ∃ mm k : ℕ, n = mm * 2 ^ k ∧ mm < 2 ^ 53

theorem bitScanForward64_spec (v : ℕ) (hv : 1 ≤ v) :
    v = 2 ^ bitScanForward64 v * (v >>> bitScanForward64 v) ∧
    (v >>> bitScanForward64 v) % 2 = 1 := by
  induction v using Nat.strong_induction_on with
  | _ v IH =>
    rw [bitScanForward64]
    split_ifs with h
    · obtain ⟨he, hne⟩ := h
      have hv2 : 1 ≤ v / 2 := by omega
      have hlt : v / 2 < v := by omega
      obtain ⟨ih1, ih2⟩ := IH (v / 2) hlt hv2
      have hdd : v >>> (bitScanForward64 (v / 2) + 1) =
          (v / 2) >>> bitScanForward64 (v / 2) := by
        rw [Nat.shiftRight_eq_div_pow, Nat.shiftRight_eq_div_pow, pow_succ',
          ← Nat.div_div_eq_div_mul]
      rw [hdd]
      refine ⟨?_, ih2⟩
      calc v = 2 * (v / 2) := by omega
        _ = 2 * (2 ^ bitScanForward64 (v / 2) *
            ((v / 2) >>> bitScanForward64 (v / 2))) := by rw [← ih1]
        _ = 2 ^ (bitScanForward64 (v / 2) + 1) *
            ((v / 2) >>> bitScanForward64 (v / 2)) := by rw [pow_succ']; ring
    · push_neg at h
      have hodd : v % 2 = 1 := by omega
      simpa [Nat.shiftRight_eq_div_pow] using hodd

theorem maxShifted_formula : ∀ e < 23,
    MaxShiftedMantissa.getD e 0 = (2 ^ 53 - 1) / 5 ^ e := by decide

/-- Core of C6: the shifted-mantissa test of `_Can_use_ryu` holds iff
`mantissa * 10 ^ e` has at most 53 significant bits. -/
theorem shifted_le_iff_representable (mant e : ℕ) (hm1 : 1 ≤ mant)
    (he1 : 1 ≤ e) (he2 : e ≤ 22) :
    (mant >>> bitScanForward64 mant ≤ MaxShiftedMantissa.getD e 0) ↔
      representableBinary64 (mant * 10 ^ e) := by
  obtain ⟨hdec, hodd⟩ := bitScanForward64_spec mant hm1
  rw [maxShifted_formula e (by omega),
    Nat.le_div_iff_mul_le (pow_pos (by norm_num : (0:ℕ) < 5) e)]
  set t := bitScanForward64 mant with ht
  set s := mant >>> t with hs
  have hfact : mant * 10 ^ e = s * 5 ^ e * 2 ^ (t + e) := by
    have h10 : (10 : ℕ) ^ e = 2 ^ e * 5 ^ e := by
      rw [← mul_pow]; norm_num
    calc mant * 10 ^ e = 2 ^ t * s * (2 ^ e * 5 ^ e) := by rw [← hdec, h10]
      _ = s * 5 ^ e * 2 ^ (t + e) := by rw [pow_add]; ring
  have h53 : (0:ℕ) < 2 ^ 53 := by norm_num
  have hsodd : (s * 5 ^ e) % 2 = 1 := by
    have h5 : (5:ℕ) ^ e % 2 = 1 := by
      rw [Nat.pow_mod]; norm_num
    rw [Nat.mul_mod, hodd, h5]
  constructor
  · intro hle
    exact ⟨s * 5 ^ e, t + e, hfact, by omega⟩
  · rintro ⟨mm, k, heq, hmm⟩
    rw [hfact] at heq
    rcases le_total k (t + e) with hk | hk
    · have h3 : s * 5 ^ e * 2 ^ (t + e - k) * 2 ^ k = mm * 2 ^ k := by
        rw [mul_assoc, ← pow_add, show t + e - k + k = t + e by omega]
        exact heq
      have hmm_eq : mm = s * 5 ^ e * 2 ^ (t + e - k) :=
        (Nat.eq_of_mul_eq_mul_right (Nat.two_pow_pos k) h3).symm
      have hle2 : s * 5 ^ e ≤ mm := by
        rw [hmm_eq]
        exact Nat.le_mul_of_pos_right _ (Nat.two_pow_pos _)
      omega
    · have h3 : s * 5 ^ e * 2 ^ (t + e) = mm * 2 ^ (k - (t + e)) * 2 ^ (t + e) := by
        conv_rhs => rw [mul_assoc, ← pow_add,
          show k - (t + e) + (t + e) = k by omega]
        exact heq
      have h4 : s * 5 ^ e = mm * 2 ^ (k - (t + e)) :=
        Nat.eq_of_mul_eq_mul_right (Nat.two_pow_pos _) h3
      rcases Nat.eq_zero_or_pos (k - (t + e)) with hz | hpos
      · rw [hz, pow_zero, mul_one] at h4
        omega
      · have h5 : mm * 2 ^ (k - (t + e)) =
            2 * (mm * 2 ^ (k - (t + e) - 1)) := by
          conv_lhs => rw [show k - (t + e) = k - (t + e) - 1 + 1 by omega]
          rw [pow_succ]
          ring
        rw [h4, h5] at hsodd
        omega

/-- C6: in the fixed path of `__to_chars` (positive `_Ryu_exponent`):
the `_Max_shifted_mantissa` table holds `(2^53 - 1) / 5^e`; for
`_Ryu_exponent > 22` the routine always delegates to
`__d2fixed_buffered_n(__f, 0)`; for `1 ≤ _Ryu_exponent ≤ 22` Ryu's digits
(followed by `_Ryu_exponent` zeros) are used iff the shifted-mantissa test
passes; and that test passes iff `mantissa * 10 ^ e` is exactly
representable as a binary64. -/
theorem can_use_ryu_characterization :
    (∀ e : ℕ, e ≤ 22 → MaxShiftedMantissa.getD e 0 = (2 ^ 53 - 1) / 5 ^ e) ∧
    (∀ (mantissa : ℕ) (e : ℤ), 22 < e →
      to_chars mantissa e chars_format.fixed = ToCharsOut.fixedDelegate 0) ∧
    (∀ (mantissa : ℕ) (e : ℤ), 1 ≤ e → e ≤ 22 →
      ((∃ l, to_chars mantissa e chars_format.fixed = ToCharsOut.chars l) ↔
        mantissa >>> bitScanForward64 mantissa ≤
          MaxShiftedMantissa.getD e.toNat 0)) ∧
    (∀ mantissa e : ℕ, 1 ≤ mantissa → 1 ≤ e → e ≤ 22 →
      ((mantissa >>> bitScanForward64 mantissa ≤
          MaxShiftedMantissa.getD e 0) ↔
        representableBinary64 (mantissa * 10 ^ e))) := by
  have hfix : ∀ (mant : ℕ) (e : ℤ),
      to_chars mant e chars_format.fixed = toCharsFixed mant e := by
    intro mant e
    simp [to_chars]
  refine ⟨?_, ?_, ?_, ?_⟩
  · intro e he
    exact maxShifted_formula e (by omega)
  · intro mant e he
    rw [hfix]
    simp only [toCharsFixed]
    rw [if_pos (by omega : (0:ℤ) < e), if_pos he, if_neg (by decide)]
  · intro mant e he1 he2
    rw [hfix]
    simp only [toCharsFixed]
    rw [if_pos (by omega : (0:ℤ) < e), if_neg (by omega : ¬ (22:ℤ) < e)]
    by_cases hP : mant >>> bitScanForward64 mant ≤
        MaxShiftedMantissa[e.toNat]?.getD 0
    · simp [hP, List.getD_eq_getElem?_getD]
    · simp [hP, List.getD_eq_getElem?_getD]
  · intro mant e hm he1 he2
    exact shifted_le_iff_representable mant e hm he1 he2

/-- Witness for C6 at `e = 23` (delegation), `(mantissa, e) = (7, 5)`
(test decides usability) and `(mantissa, e) = (3, 1)` (representability). -/
theorem can_use_ryu_characterization_witness :
    to_chars 5 23 chars_format.fixed = ToCharsOut.fixedDelegate 0 ∧
    ((∃ l, to_chars 7 5 chars_format.fixed = ToCharsOut.chars l) ↔
      (7 : ℕ) >>> bitScanForward64 7 ≤
        MaxShiftedMantissa.getD (5 : ℤ).toNat 0) ∧
    ((3 : ℕ) >>> bitScanForward64 3 ≤ MaxShiftedMantissa.getD 1 0 ↔
      representableBinary64 (3 * 10 ^ 1)) :=
  ⟨can_use_ryu_characterization.2.1 5 23 (by norm_num),
   can_use_ryu_characterization.2.2.1 7 5 (by norm_num) (by norm_num),
   can_use_ryu_characterization.2.2.2 3 1 (by norm_num) (by norm_num)
     (by norm_num)⟩

theorem getD_set_ne (l : List Char) (i j : ℕ) (c d : Char) (h : i ≠ j) :
    (l.set i c).getD j d = l.getD j d := by
  simp [List.getD_eq_getElem?_getD, List.getElem?_set_ne h]

theorem getD_set_self (l : List Char) (i : ℕ) (c d : Char)
    (h : i < l.length) :
    (l.set i c).getD i d = c := by
  simp [List.getD_eq_getElem?_getD, List.getElem?_set_eq h]

theorem sciEmitLoop_length (output2 : ℕ) :
    ∀ (buf : List Char) (olength i : ℕ),
      ((sciEmitLoop buf olength i output2).1).length = buf.length := by
  induction output2 using Nat.strong_induction_on with
  | _ o IH =>
    intro buf ol i
    rw [sciEmitLoop]
    split_ifs with h
    · rw [IH (o / 10000) (Nat.div_lt_self (by omega) (by norm_num))]
      simp [copyPair]
    · rfl

theorem sciHead_length (buf : List Char) (olength output : ℕ) :
    ((sciHead buf olength output).1).length = buf.length := by
  simp only [sciHead]
  split_ifs <;> simp [copyPair]

theorem sciTail_length (buf : List Char) (olength i output2 : ℕ) :
    (sciTail buf olength i output2).length = buf.length := by
  simp only [sciTail]
  split_ifs <;> simp [copyPair]

theorem sciDigits_length (buf : List Char) (olength output : ℕ) :
    (sciDigits buf olength output).length = buf.length := by
  simp only [sciDigits]
  rw [sciTail_length, sciEmitLoop_length, sciHead_length]

/-- The exponent region written by the scientific branch: whatever digit
region `B2` precedes it, position `idx` receives `'e'` and position
`idx + 1` an explicit sign. -/
theorem sci_exp_region (B2 : List Char) (idx : ℕ) (E : ℤ)
    (h2 : idx + 2 ≤ B2.length) :
    (if 100 ≤ E.natAbs then
        (copyPair (if E < 0 then (B2.set idx 'e').set (idx + 1) '-'
            else (B2.set idx 'e').set (idx + 1) '+') (idx + 2)
          (2 * (E.natAbs / 10))).set (idx + 4)
          (Char.ofNat (48 + E.natAbs % 10))
      else
        copyPair (if E < 0 then (B2.set idx 'e').set (idx + 1) '-'
            else (B2.set idx 'e').set (idx + 1) '+') (idx + 2)
          (2 * E.natAbs)).getD idx ' ' = 'e' ∧
    (if 100 ≤ E.natAbs then
        (copyPair (if E < 0 then (B2.set idx 'e').set (idx + 1) '-'
            else (B2.set idx 'e').set (idx + 1) '+') (idx + 2)
          (2 * (E.natAbs / 10))).set (idx + 4)
          (Char.ofNat (48 + E.natAbs % 10))
      else
        copyPair (if E < 0 then (B2.set idx 'e').set (idx + 1) '-'
            else (B2.set idx 'e').set (idx + 1) '+') (idx + 2)
          (2 * E.natAbs)).getD (idx + 1) ' ' =
      (if 0 ≤ E then '+' else '-') := by
  have hlen : idx < (B2.set idx 'e').length := by
    simp only [List.length_set]; omega
  constructor
  · split_ifs
    · simp only [copyPair]
      rw [getD_set_ne _ (idx + 4) idx _ _ (by omega),
        getD_set_ne _ (idx + 2 + 1) idx _ _ (by omega),
        getD_set_ne _ (idx + 2) idx _ _ (by omega),
        getD_set_ne _ (idx + 1) idx _ _ (by omega),
        getD_set_self _ idx _ _ (by omega)]
    · simp only [copyPair]
      rw [getD_set_ne _ (idx + 4) idx _ _ (by omega),
        getD_set_ne _ (idx + 2 + 1) idx _ _ (by omega),
        getD_set_ne _ (idx + 2) idx _ _ (by omega),
        getD_set_ne _ (idx + 1) idx _ _ (by omega),
        getD_set_self _ idx _ _ (by omega)]
    · simp only [copyPair]
      rw [getD_set_ne _ (idx + 2 + 1) idx _ _ (by omega),
        getD_set_ne _ (idx + 2) idx _ _ (by omega),
        getD_set_ne _ (idx + 1) idx _ _ (by omega),
        getD_set_self _ idx _ _ (by omega)]
    · simp only [copyPair]
      rw [getD_set_ne _ (idx + 2 + 1) idx _ _ (by omega),
        getD_set_ne _ (idx + 2) idx _ _ (by omega),
        getD_set_ne _ (idx + 1) idx _ _ (by omega),
        getD_set_self _ idx _ _ (by omega)]
  · have hlen1 : idx + 1 < ((B2.set idx 'e')).length := by
      simp only [List.length_set]; omega
    rcases le_or_lt 0 E with hE | hE
    · rw [if_pos hE, if_neg (show ¬ E < 0 by omega)]
      split_ifs with h100
      · simp only [copyPair]
        rw [getD_set_ne _ (idx + 4) (idx + 1) _ _ (by omega),
          getD_set_ne _ (idx + 2 + 1) (idx + 1) _ _ (by omega),
          getD_set_ne _ (idx + 2) (idx + 1) _ _ (by omega),
          getD_set_self _ (idx + 1) _ _ hlen1]
      · simp only [copyPair]
        rw [getD_set_ne _ (idx + 2 + 1) (idx + 1) _ _ (by omega),
          getD_set_ne _ (idx + 2) (idx + 1) _ _ (by omega),
          getD_set_self _ (idx + 1) _ _ hlen1]
    · rw [if_neg (show ¬ 0 ≤ E by omega), if_pos hE]
      split_ifs with h100
      · simp only [copyPair]
        rw [getD_set_ne _ (idx + 4) (idx + 1) _ _ (by omega),
          getD_set_ne _ (idx + 2 + 1) (idx + 1) _ _ (by omega),
          getD_set_ne _ (idx + 2) (idx + 1) _ _ (by omega),
          getD_set_self _ (idx + 1) _ _ hlen1]
      · simp only [copyPair]
        rw [getD_set_ne _ (idx + 2 + 1) (idx + 1) _ _ (by omega),
          getD_set_ne _ (idx + 2) (idx + 1) _ _ (by omega),
          getD_set_self _ (idx + 1) _ _ hlen1]

/-- C3 (amended): under the default format (`chars_format{}`) the zero bit
pattern prints exactly the single character "0" (not "0E0"), and every
scientific-branch output renders its exponent region as a lowercase 'e'
followed by an explicit sign — '+' when the scientific exponent is
non-negative ('-' otherwise), never an unsigned exponent and never an
uppercase 'E'. -/
theorem to_chars_exponent_rendering :
    d2s_buffered 0 chars_format.empty = some (ToCharsOut.chars ['0']) ∧
    (∀ (mantissa : ℕ) (exponent : ℤ), 1 ≤ mantissa → mantissa < 10 ^ 17 →
      (toCharsScientific mantissa exponent).getD
          (if 1 < decimalLength17 mantissa then decimalLength17 mantissa + 1
           else 1) ' ' = 'e' ∧
      (toCharsScientific mantissa exponent).getD
          ((if 1 < decimalLength17 mantissa then decimalLength17 mantissa + 1
            else 1) + 1) ' ' =
        (if 0 ≤ exponent + (decimalLength17 mantissa : ℤ) - 1 then '+'
         else '-')) := by
  constructor
  · decide
  · intro mantissa exponent h1 h2
    simp only [toCharsScientific]
    exact sci_exp_region _ _ _ (by
      split_ifs <;>
        simp [sciDigits_length, List.length_set, List.length_replicate] <;>
        omega)

/-- Witness for C3 (amended) at mantissa 1, decimal exponent 5 (the double
100000.0 after zero-stripping). -/
theorem to_chars_exponent_rendering_witness :
    (toCharsScientific 1 5).getD
        (if 1 < decimalLength17 1 then decimalLength17 1 + 1 else 1) ' ' =
      'e' ∧
    (toCharsScientific 1 5).getD
        ((if 1 < decimalLength17 1 then decimalLength17 1 + 1 else 1) + 1)
        ' ' =
      (if 0 ≤ 5 + (decimalLength17 1 : ℤ) - 1 then '+' else '-') :=
  to_chars_exponent_rendering.2 1 5 (by norm_num) (by norm_num)

set_option maxRecDepth 40000 in
/-- C3 counterexample: the double 0.0 prints "0" (one character), not the
claimed "0E0"; and the double 100000.0 (bit pattern 4681608360884174848)
prints "1e+05" — a lowercase 'e' and an explicit '+' on a non-negative
exponent, contradicting both the uppercase-'E' and the no-'+' parts of the
claim. -/
theorem to_chars_exponent_counterexample :
    d2s_buffered 0 chars_format.empty = some (ToCharsOut.chars ['0']) ∧
    (['0'] : List Char) ≠ ['0', 'E', '0'] ∧
    d2s_buffered 4681608360884174848 chars_format.empty =
      some (ToCharsOut.chars ['1', 'e', '+', '0', '5']) ∧
    'E' ∉ (['1', 'e', '+', '0', '5'] : List Char) ∧
    '+' ∈ (['1', 'e', '+', '0', '5'] : List Char) := by
  refine ⟨by decide, by decide, ?_, by decide, by decide⟩
  have h1 : (4681608360884174848 : ℕ) &&& ((1 <<< 52) - 1) =
      2368348046229504 := by decide
  have h2 : (4681608360884174848 : ℕ) >>> 52 = 1039 := by decide
  have h3 : d2d_small_int 2368348046229504 1039 =
      some ⟨100000, 0⟩ := by decide
  have h4 : stripZeros 100000 0 = (1, 5) := by simp [stripZeros]
  have h5 : to_chars 1 5 chars_format.empty =
      ToCharsOut.chars ['1', 'e', '+', '0', '5'] := by
    simp [to_chars, toCharsScientific, sciDigits, sciHead, sciTail,
      sciEmitLoop, copyPair, DIGIT_TABLE, decimalLength17]
  simp only [d2s_buffered]
  rw [if_neg (by decide), h1, h2, if_neg (by simp), h3]
  show some (to_chars (stripZeros 100000 0).1 (stripZeros 100000 0).2
    chars_format.empty) = _
  rw [h4]
  show some (to_chars 1 5 chars_format.empty) = _
  rw [h5]
